import Mathlib

/-!
# Verification of `chords/main.go`

A shallow embedding of the generator in `src/chords/main.go`: the two-voice
euclidean improvisation (`euclideanImprov`), the scale-chord walk
(`playScaleChords`), the chord progression with its four textures
(`playProgression`) and the scale walk (`playScale`).

Conventions of the embedding.

* The MIDI track is the list of `(delta, message)` pairs handed to
  `tr.AddAfterDelta`, in emission order.
* `uint32` values are natural numbers; every `uint32` operation that can wrap
  is written with an explicit `% 2 ^ 32`.
* Pitches (`int`) are integers.
* A run-time failure of the Go program (index out of range, nil dereference,
  integer division by zero) is the `Res.panic` outcome, which keeps the events
  emitted before the failure.
* Values drawn from the random source or returned by the external `theory`,
  `euclidean` and `midi` packages are parameters.
-/

namespace Chords

/-! ## Events and outcomes -/

/-- The two messages the program builds: `midi.NoteOn(channel, key, vel)` and
`midi.NoteOff(channel, key)`. -/
inductive Msg where
  | noteOn (channel key vel : Int)
  | noteOff (channel key : Int)
deriving DecidableEq, Repr

/-- One call `tr.AddAfterDelta(delta, msg)`. -/
structure Event where
  delta : Nat
  msg : Msg
deriving DecidableEq, Repr

/-- Outcome of a piece of the program: it either runs to its end with a final
state, or stops on a run-time failure; in both cases `evs` are the events
emitted. -/
inductive Res (σ : Type) where
  | ok (s : σ) (evs : List Event)
  | panic (evs : List Event)
deriving DecidableEq, Repr

namespace Res

/-- The events emitted, whether or not the run failed. -/
def events {σ : Type} : Res σ → List Event
  | ok _ evs => evs
  | panic evs => evs

/-- Whether the run reached its end. -/
def isOk {σ : Type} : Res σ → Bool
  | ok _ _ => true
  | panic _ => false

/-- The run `r` preceded by the emission of `pre`. -/
def prepend {σ : Type} (pre : List Event) : Res σ → Res σ
  | ok s evs => ok s (pre ++ evs)
  | panic evs => panic (pre ++ evs)

/-- Sequencing: run `r`, then `f` on its final state unless `r` failed. -/
def andThen {σ τ : Type} (r : Res σ) (f : σ → Res τ) : Res τ :=
  match r with
  | ok s evs => prepend evs (f s)
  | panic evs => panic evs

end Res

/-- Sum of the delta times of a list of events. -/
def totalTicks (evs : List Event) : Nat :=
  (evs.map Event.delta).sum

/-! ## `euclideanImprov` (lines 96-144) -/

/-- The press flags declared at lines 97-102. -/
structure Press where
  isAPressed : Bool
  isBPressed : Bool
  wasAPressed : Bool
  wasBPressed : Bool
deriving DecidableEq, Repr

/-- All flags start `false` (Go zero values). -/
def Press.init : Press := ⟨false, false, false, false⟩

/-- The pattern `if cond { tr.AddAfterDelta(delta, m); delta = 0 }` of lines
117-135, on the pair (accumulator, events emitted so far in the step). -/
def emitIf (cond : Bool) (m : Msg) (acc : Nat × List Event) : Nat × List Event :=
  if cond then (0, acc.2 ++ [⟨acc.1, m⟩]) else acc

/-- Lines 136-141: the accumulator at the end of a step. -/
def nextDelta (ppq : Nat) (p : Press) (delta : Nat) : Nat :=
  if p.isAPressed || p.isBPressed || p.wasAPressed || p.wasBPressed then ppq / 4
  else (delta + ppq / 4) % 2 ^ 32

/-- The flags during a step in which voice A reads `onA` and voice B reads
`onB` (lines 113-123). -/
def stepPress (onA onB : Bool) (p : Press) : Press :=
  ⟨onA, onB, p.isAPressed, p.isBPressed⟩

/-- The events of one step and the accumulator after them (lines 117-135),
before the accumulator update of lines 136-141. -/
def stepEmit (key key2 : Int) (onA onB : Bool) (p : Press) (delta : Nat) : Nat × List Event :=
  let q := stepPress onA onB p
  emitIf (q.wasBPressed && !q.isBPressed) (Msg.noteOff 1 key2)
    (emitIf (q.wasAPressed && !q.isAPressed) (Msg.noteOff 1 key)
      (emitIf onB (Msg.noteOn 1 key2 99)
        (emitIf onA (Msg.noteOn 1 key 99) (delta, []))))

/-- The inner loop `for i, on := range beatsA` (lines 112-142), from step
index `i` on. Reading `beatsB[i]` past the end of `beatsB` is a run-time
failure, which happens after voice A's note-on of that step. -/
def barLoop (ppq : Nat) (key key2 : Int) (beatsB : List Bool) :
    List Bool → Nat → Press → Nat → Res (Press × Nat)
  | [], _, p, delta => Res.ok (p, delta) []
  | onA :: rest, i, p, delta =>
    match beatsB[i]? with
    | none => Res.panic (emitIf onA (Msg.noteOn 1 key 99) (delta, [])).2
    | some onB =>
      let out := stepEmit key key2 onA onB p delta
      let q := stepPress onA onB p
      Res.prepend out.2 (barLoop ppq key key2 beatsB rest (i + 1) q (nextDelta ppq q out.1))

/-- One bar: `var delta uint32` (line 111) starts the accumulator at zero,
then the inner loop runs over `beatsA`. -/
def playBar (ppq : Nat) (key key2 : Int) (beatsA beatsB : List Bool) (p : Press) :
    Res (Press × Nat) :=
  barLoop ppq key key2 beatsB beatsA 0 p 0

/-- The outer loop over bars (lines 108-143); each bar is given by the two
patterns drawn for it. The accumulator left by a bar is not passed on. -/
def improvBars (ppq : Nat) (key key2 : Int) :
    List (List Bool × List Bool) → Press → Res Press
  | [], p => Res.ok p []
  | bar :: bars, p =>
    (playBar ppq key key2 bar.1 bar.2 p).andThen
      (fun s => improvBars ppq key key2 bars s.1)

/-- The function `euclideanImprov`: four bars, bar `i` playing the patterns
`rhythm i` returned by the two `euclidean.Rhythm` calls of that bar; `key` is
`midi.KeyInt(root, 3)` and `key2` the scale pitch drawn at line 106. -/
def euclideanImprov (ppq : Nat) (key key2 : Int) (rhythm : Nat → List Bool × List Bool) :
    Res Press :=
  improvBars ppq key key2 [rhythm 0, rhythm 1, rhythm 2, rhythm 3] Press.init

/-! ## The external tables -/

/-- What the program reads from the `theory` and `midi` packages for the
chosen root and scale. A chord is represented by its `Keys`. -/
structure Theory where
  /-- First result of `theory.ScaleNotes(root, scale)`. -/
  scaleKeys : List Int
  /-- The table `midi.Notes`. -/
  notes : List String
  /-- The table `theory.RichScaleChords[scale]`. -/
  richScaleChords : List (List String)
  /-- The table `theory.RomanNumerals[scale]`. -/
  romanNumerals : List String
  /-- The `Keys` of `theory.NewChordFromAbbrev(name)`, `none` for `nil`. -/
  newChordFromAbbrev : String → Option (List Int)

/-- Indexing a Go slice with an `int`: `none` stands for the index-out-of-range
failure. -/
def index? {α : Type} (xs : List α) (i : Int) : Option α :=
  if i < 0 then none else xs[i.toNat]?

/-! ## The chord loops shared by the textures and the walk -/

/-- The note-on loop of lines 260-265 (and 187-192): every key is emitted with
the current `timeBuffer`, which is zeroed after the first. Returns the final
`timeBuffer` and the events. -/
def noteOnLoop (bump : Int) : List Int → Nat → Nat → Nat × List Event
  | [], _, tb => (tb, [])
  | k :: ks, i, tb =>
    let r := noteOnLoop bump ks (i + 1) (if i = 0 then 0 else tb)
    (r.1, ⟨tb, Msg.noteOn 1 (k + bump) 99⟩ :: r.2)

/-- The note-off loop of lines 267-275 (and 193-201, 211-219): the first key
is emitted after `hold` ticks, the others with `timeBuffer` zero. -/
def noteOffLoop (bump : Int) (hold : Nat) : List Int → Nat → Nat → Nat × List Event
  | [], _, tb => (tb, [])
  | k :: ks, i, tb =>
    let tb1 := if i = 0 then hold else tb
    let r := noteOffLoop bump hold ks (i + 1) (if i = 0 then 0 else tb1)
    (r.1, ⟨tb1, Msg.noteOff 1 (k + bump)⟩ :: r.2)

/-! ## `playProgression` (lines 247-348) -/

/-- The constant `octaveBump := 12 * 2` of lines 150 and 249. -/
def octaveBump : Int := 12 * 2

/-- The repeat count of line 256, a `uint32` product. -/
def repeatedChordsRepeats (ppq rate : Nat) : Nat :=
  ((ppq / rate) * 2) % 2 ^ 32

/-- The repeat count of line 283, a `uint32` product. -/
def downUpRepeats (ppq rate : Nat) : Nat :=
  ((ppq / rate) * 4) % 2 ^ 32

/-- The loop `for n := 0; n < repeats; n++` of lines 258-276, with `todo`
iterations left. -/
def repeatedChordsLoop (rate : Nat) (keys : List Int) : Nat → Nat → Nat × List Event
  | 0, tb => (tb, [])
  | todo + 1, tb =>
    let a := noteOnLoop octaveBump keys 0 tb
    let b := noteOffLoop octaveBump rate keys 0 a.1
    let r := repeatedChordsLoop rate keys todo b.1
    (r.1, a.2 ++ b.2 ++ r.2)

/-- The closure returned by `repeatedChords(rate)` (lines 254-278) run on the
chord `keys` with `timeBuffer = tb`. The division of line 256 fails when
`rate` is zero. -/
def repeatedChords (ppq rate : Nat) (keys : List Int) (_tb : Nat) : Res Nat :=
  if rate = 0 then Res.panic []
  else
    let r := repeatedChordsLoop rate keys (repeatedChordsRepeats ppq rate) 0
    Res.ok r.1 r.2

/-- The note-on loop of `downUp` (lines 288-299) in repeat `n`. -/
def downUpOnLoop (bump : Int) (n : Nat) : List Int → Nat → Nat → Nat × List Event
  | [], _, tb => (tb, [])
  | k :: ks, i, tb =>
    let k1 := if i = 0 then k - 12 else k
    let e : Event := ⟨tb, Msg.noteOn 1 (k1 + bump) 99⟩
    if i = 0 then
      if n % 2 = 0 then (0, [e])
      else
        let r := downUpOnLoop bump n ks (i + 1) 0
        (r.1, e :: r.2)
    else
      let r := downUpOnLoop bump n ks (i + 1) tb
      (r.1, e :: r.2)

/-- The note-off loop of `downUp` (lines 301-313) in repeat `n`. -/
def downUpOffLoop (bump : Int) (rate n : Nat) : List Int → Nat → Nat → Nat × List Event
  | [], _, tb => (tb, [])
  | k :: ks, i, tb =>
    let tb1 := if i = 0 then rate else tb
    let k1 := if i = 0 then k - 12 else k
    let e : Event := ⟨tb1, Msg.noteOff 1 (k1 + bump)⟩
    if i = 0 then
      if n % 2 = 0 then (0, [e])
      else
        let r := downUpOffLoop bump rate n ks (i + 1) 0
        (r.1, e :: r.2)
    else
      let r := downUpOffLoop bump rate n ks (i + 1) tb1
      (r.1, e :: r.2)

/-- The loop `for n := 0; n < repeats; n++` of lines 285-314, at repeat index
`n` with `todo` iterations left. -/
def downUpLoop (rate : Nat) (keys : List Int) : Nat → Nat → Nat → Nat × List Event
  | 0, _, tb => (tb, [])
  | todo + 1, n, tb =>
    let bump : Int := octaveBump + ((n % 2 : Nat) : Int) * 12
    let a := downUpOnLoop bump n keys 0 tb
    let b := downUpOffLoop bump rate n keys 0 a.1
    let r := downUpLoop rate keys todo (n + 1) b.1
    (r.1, a.2 ++ b.2 ++ r.2)

/-- The closure returned by `downUp(rate)` (lines 281-316). -/
def downUp (ppq rate : Nat) (keys : List Int) (_tb : Nat) : Res Nat :=
  if rate = 0 then Res.panic []
  else
    let r := downUpLoop rate keys (downUpRepeats ppq rate) 0 0
    Res.ok r.1 r.2

/-- The slice `arps` of lines 318-322; `ppq * 2` is a `uint32` product. -/
def arps (ppq : Nat) : List (List Int → Nat → Res Nat) :=
  [repeatedChords ppq ((ppq * 2) % 2 ^ 32),
   repeatedChords ppq ppq,
   downUp ppq ppq,
   downUp ppq (ppq / 2)]

/-- The chord type of lines 328-331: 1 for an even slot, 0 otherwise. -/
def chordTypeOf (k : Int) : Int :=
  if Int.tmod k 2 = 0 then 1 else 0

/-- The string `chordName` of lines 332-334; `none` when one of the four
index expressions is out of range. -/
def progressionChordName (T : Theory) (k : Int) : Option String :=
  match index? T.scaleKeys k with
  | none => none
  | some key =>
    match index? T.notes (Int.tmod key 12) with
    | none => none
    | some note =>
      match index? T.richScaleChords k with
      | none => none
      | some row =>
        match index? row (chordTypeOf k) with
        | none => none
        | some quality => some (note ++ quality ++ "\n")

/-- The loop over the progression (lines 326-346) for the texture `fn`;
`first` says whether this is texture 0, the one that also reads
`theory.RomanNumerals[scale][k]` (line 337). -/
def progressionLoop (T : Theory) (fn : List Int → Nat → Res Nat) (first : Bool) :
    List Int → Nat → Res Nat
  | [], tb => Res.ok tb []
  | k :: ks, tb =>
    match progressionChordName T k with
    | none => Res.panic []
    | some name =>
      if first && (index? T.romanNumerals k).isNone then Res.panic []
      else
        match T.newChordFromAbbrev name with
        | none => progressionLoop T fn first ks tb
        | some c => (fn c tb).andThen (fun tb1 => progressionLoop T fn first ks tb1)

/-- The loop over the textures (line 325), at texture index `i`. -/
def arpsLoop (T : Theory) (progression : List Int) :
    List (List Int → Nat → Res Nat) → Nat → Nat → Res Nat
  | [], _, tb => Res.ok tb []
  | fn :: fns, i, tb =>
    (progressionLoop T fn (i == 0) progression tb).andThen
      (fun tb1 => arpsLoop T progression fns (i + 1) tb1)

/-- The function `playProgression`; the result state is the final
`timeBuffer`. -/
def playProgression (ppq : Nat) (T : Theory) (progression : List Int) : Res Nat :=
  arpsLoop T progression (arps ppq) 0 0

/-! ## `playScaleChords` (lines 146-221) -/

/-- The loop of lines 154-160: every key is raised by `octaveBump`, and by one
more octave when it is then below `start`. -/
def raiseKeys (start : Int) (keys : List Int) : List Int :=
  keys.map (fun k => if k + octaveBump < start then k + octaveBump + 12 else k + octaveBump)

/-- The string `chordName` of lines 173-175 for degree `i` and quality
`chordTypeIDX`, where `row` is `scaleChords[i]`; `none` when an index
expression is out of range. -/
def scaleChordName (T : Theory) (keys : List Int) (row : List String) (i chordTypeIDX : Nat) :
    Option String :=
  match keys[i]? with
  | none => none
  | some key =>
    match index? T.notes (Int.tmod key 12) with
    | none => none
    | some note =>
      match row[chordTypeIDX]? with
      | none => none
      | some quality => some (note ++ quality ++ "\n")

/-- The loop over the roman numerals (lines 168-202) in the pass of quality
`chordTypeIDX`, at degree index `i`. The state is `firstChord` (`none` for
`nil`) and `timeBuffer`. The guard of line 169 reads `scaleChords[i]` whenever
`i > len(scaleChords)` is false. -/
def walkLoop (ppq : Nat) (T : Theory) (keys : List Int) (chordTypeIDX : Nat) :
    List String → Nat → Option (List Int) → Nat → Res (Option (List Int) × Nat)
  | [], _, firstChord, tb => Res.ok (firstChord, tb) []
  | _ :: romans, i, firstChord, tb =>
    if i > T.richScaleChords.length then
      walkLoop ppq T keys chordTypeIDX romans (i + 1) firstChord tb
    else
      match T.richScaleChords[i]? with
      | none => Res.panic []
      | some row =>
        if chordTypeIDX > row.length then
          walkLoop ppq T keys chordTypeIDX romans (i + 1) firstChord tb
        else
          match scaleChordName T keys row i chordTypeIDX with
          | none => Res.panic []
          | some name =>
            let c := T.newChordFromAbbrev name
            let firstChord1 := if i = 0 then c else firstChord
            match c with
            | none => walkLoop ppq T keys chordTypeIDX romans (i + 1) firstChord1 tb
            | some ck =>
              let a := noteOnLoop octaveBump ck 0 tb
              let b := noteOffLoop octaveBump ((ppq * 2) % 2 ^ 32) ck 0 a.1
              Res.prepend (a.2 ++ b.2)
                (walkLoop ppq T keys chordTypeIDX romans (i + 1) firstChord1 b.1)

/-- The note-on loop of the cadence (lines 205-210): every key is emitted with
delta 0, and `timeBuffer` is set to `ppq * 2` at the first. -/
def cadenceOnLoop (ppq : Nat) : List Int → Nat → Nat → Nat × List Event
  | [], _, tb => (tb, [])
  | k :: ks, i, tb =>
    let r := cadenceOnLoop ppq ks (i + 1) (if i = 0 then (ppq * 2) % 2 ^ 32 else tb)
    (r.1, ⟨0, Msg.noteOn 1 (k + 24) 99⟩ :: r.2)

/-- The cadence of lines 204-219 on the recorded chord `firstChord`; reading
`firstChord.Keys` fails when `firstChord` is `nil`. -/
def cadence (ppq : Nat) (firstChord : Option (List Int)) (tb : Nat) : Res Nat :=
  match firstChord with
  | none => Res.panic []
  | some fk =>
    let a := cadenceOnLoop ppq fk 0 tb
    let b := noteOffLoop 24 ((ppq * 2) % 2 ^ 32) fk 0 a.1
    Res.ok b.1 (a.2 ++ b.2)

/-- The loop over the chord qualities (lines 164-220), at quality index
`chordTypeIDX` with `todo` passes left. -/
def qualityLoop (ppq : Nat) (T : Theory) (keys : List Int) :
    Nat → Nat → Option (List Int) → Nat → Res (Option (List Int) × Nat)
  | 0, _, firstChord, tb => Res.ok (firstChord, tb) []
  | todo + 1, chordTypeIDX, firstChord, tb =>
    (walkLoop ppq T keys chordTypeIDX T.romanNumerals 0 firstChord tb).andThen
      (fun s => (cadence ppq s.1 s.2).andThen
        (fun tb1 => qualityLoop ppq T keys todo (chordTypeIDX + 1) s.1 tb1))

/-- The function `playScaleChords`. Reading `keys[0]` (line 152) and
`theory.RichScaleChords[scale][0]` (line 164) fails on an empty slice. -/
def playScaleChords (ppq : Nat) (T : Theory) : Res (Option (List Int) × Nat) :=
  match T.scaleKeys[0]? with
  | none => Res.panic []
  | some k0 =>
    match T.richScaleChords[0]? with
    | none => Res.panic []
    | some row0 =>
      qualityLoop ppq T (raiseKeys (k0 + octaveBump) T.scaleKeys) row0.length 0 none 0

/-! ## `playScale` (lines 223-245) -/

/-- The loop of lines 229-235, with `octaveBump := 12 * 4`: every key is
raised by `octaveBump`, and by one more octave when it is then below `start`. -/
def playScaleKeys (start : Int) (keys : List Int) : List Int :=
  keys.map (fun k => if k + 12 * 4 < start then k + 12 * 4 + 12 else k + 12 * 4)

/-- The function `playScale`: every raised key for `ppq` ticks, then the first
key one octave higher. Reading `keys[0]` fails on an empty scale. -/
def playScale (ppq : Nat) (T : Theory) : Res Unit :=
  match T.scaleKeys[0]? with
  | none => Res.panic []
  | some k0 =>
    let keys := playScaleKeys (k0 + 12 * 4) T.scaleKeys
    let walk : List Event :=
      keys.flatMap (fun k => [⟨0, Msg.noteOn 1 k 99⟩, ⟨ppq, Msg.noteOff 1 k⟩])
    match keys[0]? with
    | none => Res.panic walk
    | some k1 =>
      Res.ok () (walk ++ [⟨0, Msg.noteOn 1 (k1 + 12) 99⟩, ⟨ppq, Msg.noteOff 1 (k1 + 12)⟩])

/-! ## Properties of event streams -/

/-- Whether the message is a note-on of the pair `(ch, pitch)`. -/
def Msg.isOnFor (ch pitch : Int) : Msg → Bool
  | Msg.noteOn c k _ => decide (ch = c ∧ pitch = k)
  | Msg.noteOff _ _ => false

/-- Whether the message is a note-off of the pair `(ch, pitch)`. -/
def Msg.isOffFor (ch pitch : Int) : Msg → Bool
  | Msg.noteOn _ _ _ => false
  | Msg.noteOff c k => decide (ch = c ∧ pitch = k)

/-- Strict matching of the pair `(ch, pitch)` in a stream, read from a point
where the pair is sounding or not: a note-on comes only while the pair is not
sounding, a note-off only while it is, and the stream ends with the pair not
sounding. -/
def strictlyMatchedFrom (ch pitch : Int) : Bool → List Event → Bool
  | sounding, [] => !sounding
  | sounding, e :: evs =>
    if e.msg.isOnFor ch pitch then !sounding && strictlyMatchedFrom ch pitch true evs
    else if e.msg.isOffFor ch pitch then sounding && strictlyMatchedFrom ch pitch false evs
    else strictlyMatchedFrom ch pitch sounding evs

/-- Every note-on of `(ch, pitch)` is matched by exactly one later note-off of
the pair, before the next note-on of the pair or the end of the stream, and no
note-off precedes its note-on. -/
def strictlyMatched (ch pitch : Int) (evs : List Event) : Bool :=
  strictlyMatchedFrom ch pitch false evs

/-- Matching of the releases of `(ch, pitch)`: a note-off comes only while the
pair is sounding, that is after at least one note-on of the pair emitted since
its previous note-off. Note-ons are unconstrained. -/
def releasesMatchedFrom (ch pitch : Int) : Bool → List Event → Bool
  | _, [] => true
  | sounding, e :: evs =>
    if e.msg.isOnFor ch pitch then releasesMatchedFrom ch pitch true evs
    else if e.msg.isOffFor ch pitch then sounding && releasesMatchedFrom ch pitch false evs
    else releasesMatchedFrom ch pitch sounding evs

/-- No note-off of `(ch, pitch)` precedes its note-on, and two note-offs of the
pair are separated by a note-on of the pair. -/
def releasesMatched (ch pitch : Int) (evs : List Event) : Bool :=
  releasesMatchedFrom ch pitch false evs

/-- Whether `(ch, pitch)` is sounding after the events `evs`. -/
def soundingAfter (ch pitch : Int) : Bool → List Event → Bool
  | sounding, [] => sounding
  | sounding, e :: evs =>
    if e.msg.isOnFor ch pitch then soundingAfter ch pitch true evs
    else if e.msg.isOffFor ch pitch then soundingAfter ch pitch false evs
    else soundingAfter ch pitch sounding evs

/-- Whether the press flags say that `(ch, pitch)` is held by a voice. -/
def held (key key2 ch pitch : Int) (p : Press) : Bool :=
  decide (ch = 1) && ((decide (pitch = key) && p.isAPressed) ||
    (decide (pitch = key2) && p.isBPressed))

/-- The 16-step pattern that is on exactly at the steps listed in `l`. -/
def pattern (l : List Nat) : List Bool :=
  (List.range 16).map (fun i => decide (i ∈ l))

/-- The ticks spanned by each of the four textures of `arps` on one chord. -/
def textureTicks (ppq : Nat) (keys : List Int) : List Nat :=
  (arps ppq).map (fun fn => totalTicks (fn keys 0).events)

/-- Whether slot `k` reaches `theory.NewChordFromAbbrev` in every texture (its
chord name and its roman numeral can be read) and the chord does not resolve. -/
def failsToResolve (T : Theory) (k : Int) : Bool :=
  match progressionChordName T k with
  | none => false
  | some name => (index? T.romanNumerals k).isSome && (T.newChordFromAbbrev name).isNone

/-- The chord of slot `k`, when its name can be read and resolves. -/
def slotChord (T : Theory) (k : Int) : Option (List Int) :=
  match progressionChordName T k with
  | none => none
  | some name => T.newChordFromAbbrev name

/-- A texture that always runs to its end and whose events do not depend on
the incoming `timeBuffer`. -/
def Steady (fn : List Int → Nat → Res Nat) : Prop :=
  ∀ c tb, ∃ tb1, fn c tb = Res.ok tb1 (fn c 0).events

/-- The C major scale as the tables give it, with a chord resolver that knows
the chords of degrees I (triad and seventh), II and IV only. -/
def cMajor : Theory where
  scaleKeys := [0, 2, 4, 5, 7, 9, 11]
  notes := ["C", "C#", "D", "D#", "E", "F", "F#", "G", "G#", "A", "A#", "B"]
  richScaleChords := [["maj", "maj7"], ["min", "min7"], ["min", "min7"], ["maj", "maj7"],
    ["maj", "7"], ["min", "min7"], ["dim", "m7b5"]]
  romanNumerals := ["I", "II", "III", "IV", "V", "VI", "VII"]
  newChordFromAbbrev := fun s =>
    if s = "Cmaj7\n" then some [0, 4, 7, 11]
    else if s = "Cmaj\n" then some [0, 4, 7]
    else if s = "Dmin\n" then some [2, 5, 9]
    else if s = "Fmaj\n" then some [5, 9, 12]
    else none

/-- The chord of degree `i` at quality `q` in the scale-chord walk, when its
table entries can be read and its name resolves. -/
def degreeChord (T : Theory) (keys : List Int) (i q : Nat) : Option (List Int) :=
  match T.richScaleChords[i]? with
  | none => none
  | some row =>
    match scaleChordName T keys row i q with
    | none => none
    | some name => T.newChordFromAbbrev name

/-- The events of lines 187-201 for the chord `c`: its note-ons, then its
note-offs after `ppq * 2` ticks. -/
def chordBlock (ppq : Nat) (c : List Int) : List Event :=
  (noteOnLoop octaveBump c 0 0).2 ++ (noteOffLoop octaveBump ((ppq * 2) % 2 ^ 32) c 0 0).2

/-- The events of the cadence (lines 205-219) on the chord `c`. -/
def cadenceBlock (ppq : Nat) (c : List Int) : List Event :=
  (cadenceOnLoop ppq c 0 0).2 ++
    (noteOffLoop 24 ((ppq * 2) % 2 ^ 32) c 0 (cadenceOnLoop ppq c 0 0).1).2

/-- The keys the walk works with: the scale keys raised as at lines 152-160. -/
def walkKeys (T : Theory) : List Int :=
  raiseKeys (T.scaleKeys.headD 0 + octaveBump) T.scaleKeys

/-- The events of the walk over the degrees `i, i + 1, ..., i + n - 1` at
quality `q`. -/
def walkBlocks (ppq : Nat) (T : Theory) (keys : List Int) (q i n : Nat) : List Event :=
  (List.range' i n).flatMap (fun j => chordBlock ppq ((degreeChord T keys j q).getD []))

/-- The events of the pass of quality `q`: the walk over the `n` degrees, then
one replay of the chord of degree 0. -/
def passEvents (ppq : Nat) (T : Theory) (keys : List Int) (n q : Nat) : List Event :=
  walkBlocks ppq T keys q 0 n ++ cadenceBlock ppq ((degreeChord T keys 0 q).getD [])

/-- C major with a resolver that returns a triad for every name. -/
def cMajorAll : Theory :=
  { cMajor with newChordFromAbbrev := fun _ => some [0, 4, 7] }

/-- Two degrees, the second offering fewer qualities than the first. -/
def fewerQualities : Theory :=
  { cMajor with
    scaleKeys := [0, 2]
    richScaleChords := [["maj", "maj7"], ["min"]]
    romanNumerals := ["I", "II"] }

/-- Three roman numerals over a chord table of two degrees. -/
def moreNumerals : Theory :=
  { cMajor with
    scaleKeys := [0, 2, 4]
    richScaleChords := [["maj"], ["min"]]
    romanNumerals := ["I", "II", "III"] }

/-- C major with a resolver that does not know the tonic chords. -/
def tonicUnresolved : Theory :=
  { cMajor with newChordFromAbbrev := fun s => if s = "Dmin\n" then some [2, 5, 9] else none }

/-! ## The steps of a bar of the improvisation -/

/-- The events carrying the messages `ms` when the first is emitted after
`delta` ticks and the others at the same instant. -/
def stamp (delta : Nat) : List Msg → List Event
  | [] => []
  | m :: ms => ⟨delta, m⟩ :: ms.map (fun x => ⟨0, x⟩)

/-- The messages of one step in the order voice A note-on, voice B note-on,
voice A note-off, voice B note-off, each present under its condition; `p`
holds the press flags on entry to the step. -/
def stepMsgs (key key2 : Int) (onA onB : Bool) (p : Press) : List Msg :=
  (if onA then [Msg.noteOn 1 key 99] else []) ++
  (if onB then [Msg.noteOn 1 key2 99] else []) ++
  (if p.isAPressed && !onA then [Msg.noteOff 1 key] else []) ++
  (if p.isBPressed && !onB then [Msg.noteOff 1 key2] else [])

/-- What happens in one step of a bar: the accumulator and the press flags on
entry, what the two patterns read, and the events emitted. -/
structure StepRecord where
  delta : Nat
  press : Press
  onA : Bool
  onB : Bool
  events : List Event

/-- The steps of a bar one by one, for the pattern values `steps` read by the
two voices, from the press flags `p` and the accumulator `delta`. -/
def barSteps (ppq : Nat) (key key2 : Int) : List (Bool × Bool) → Press → Nat → List StepRecord
  | [], _, _ => []
  | s :: rest, p, delta =>
    let out := stepEmit key key2 s.1 s.2 p delta
    let q := stepPress s.1 s.2 p
    ⟨delta, p, s.1, s.2, out.2⟩ :: barSteps ppq key key2 rest q (nextDelta ppq q out.1)

/-- All the events of a list of steps, in order. -/
def stepsEvents (steps : List StepRecord) : List Event :=
  steps.flatMap StepRecord.events

/-- Whether the message is a note-on. -/
def Msg.isNoteOn : Msg → Bool
  | Msg.noteOn _ _ _ => true
  | Msg.noteOff _ _ => false

/-- The number of note-on events of a stream. -/
def countNoteOns (evs : List Event) : Nat :=
  evs.countP (fun e => e.msg.isNoteOn)

/-- The number of note-off events of the pair `(ch, pitch)` in a stream. -/
def countNoteOffs (ch pitch : Int) (evs : List Event) : Nat :=
  evs.countP (fun e => e.msg.isOffFor ch pitch)

/-- The number of steps of a pattern in which the voice was pressed in the
previous step and is not on in the current one; `prev` is the press flag on
entry to the first step. -/
def releases : Bool → List Bool → Nat
  | _, [] => 0
  | prev, b :: bs => (if prev && !b then 1 else 0) + releases b bs

/-! ## Messages and matching in the textures -/

/-- The messages of one repeat that sounds the pitches `ps`: a note-on for
each pitch, then a note-off for each pitch in the same order. -/
def repeatMsgs (ps : List Int) : List Msg :=
  ps.map (fun x => Msg.noteOn 1 x 99) ++ ps.map (fun x => Msg.noteOff 1 x)

/-- The pitches sounded by repeat `n` of the down-up texture on the chord
`keys`: on an even repeat the first voice alone, one octave below its
placement in the repeated-chords texture; on an odd repeat the first voice at
that placement and every other voice one octave above it. -/
def downUpPitches (keys : List Int) (n : Nat) : List Int :=
  match keys with
  | [] => []
  | k0 :: ks => if n % 2 = 0 then [k0 + 24 - 12] else (k0 + 24) :: ks.map (fun k => k + 36)

/-- Matching by counting for the pair `(ch, pitch)`, read with `c` note-ons of
the pair still open: a note-off needs an open note-on, which it closes, and
none is open at the end. -/
def balancedFrom (ch pitch : Int) : Nat → List Msg → Bool
  | c, [] => c == 0
  | c, m :: ms =>
    if m.isOnFor ch pitch then balancedFrom ch pitch (c + 1) ms
    else if m.isOffFor ch pitch then decide (0 < c) && balancedFrom ch pitch (c - 1) ms
    else balancedFrom ch pitch c ms

/-- Every note-on of `(ch, pitch)` is matched by exactly one later note-off of
the pair, and no note-off precedes its note-on. -/
def balanced (ch pitch : Int) (evs : List Event) : Bool :=
  balancedFrom ch pitch 0 (evs.map Event.msg)

/-- A run of messages that leaves the matching of every pair as it found it. -/
def Neutral (ms : List Msg) : Prop :=
  ∀ (ch pitch : Int) (c : Nat) (rest : List Msg),
    balancedFrom ch pitch c (ms ++ rest) = balancedFrom ch pitch c rest

/-- The pitches the claim C14 expects in repeat `n` of the down-up texture: on
an even repeat the first voice alone at `k0 + 24 - 12`, on an odd repeat every
chord pitch at `k + 24`. -/
def downUpPitchesExpected (keys : List Int) (n : Nat) : List Int :=
  match keys with
  | [] => []
  | k0 :: _ => if n % 2 = 0 then [k0 + 24 - 12] else keys.map (fun k => k + 24)

/-! ## Outcomes of the scale-chord walk and names of the progression -/

/-- What the walk does at degree `i` in the pass of quality `q`: `none` when
an index expression fails, `some none` when the degree is skipped (by the
guard of line 169 or because its chord does not resolve), `some (some c)` when
its chord resolves to `c`. -/
def degreeOutcome (T : Theory) (keys : List Int) (i q : Nat) : Option (Option (List Int)) :=
  if i > T.richScaleChords.length then some none
  else
    match T.richScaleChords[i]? with
    | none => none
    | some row =>
      if q > row.length then some none
      else
        match scaleChordName T keys row i q with
        | none => none
        | some name => some (T.newChordFromAbbrev name)

/-- The number of degrees below `n` whose chord resolves, with at least one
voice, at quality `q`. -/
def soundingDegrees (T : Theory) (keys : List Int) (q n : Nat) : Nat :=
  (List.range' 0 n).countP (fun j => !((degreeChord T keys j q).getD []).isEmpty)

/-- The chord name of slot `k` built with the quality index chosen by the
parity of `k`: index 1 for an even `k`, index 0 for an odd `k`. -/
def chordNameByParity (T : Theory) (k : Int) : Option String :=
  (index? T.scaleKeys k).bind fun key =>
  (index? T.notes (Int.tmod key 12)).bind fun note =>
  (index? T.richScaleChords k).bind fun row =>
  (index? row (if k % 2 = 0 then 1 else 0)).map fun quality => note ++ quality ++ "\n"

/-- C major reduced to its first three degrees with one quality each, and a
resolver that knows the tonic triad only: degrees 1 and 2 do not resolve. -/
def tonicOnly : Theory :=
  { cMajor with
    scaleKeys := [0, 2, 4]
    richScaleChords := [["maj"], ["min"], ["min"]]
    romanNumerals := ["I", "II", "III"]
    newChordFromAbbrev := fun s => if s = "Cmaj\n" then some [0, 4, 7] else none }

/-- The keys of a scale on the root pitch class `r` whose degrees lie
`offsets` semitones above the root, as pitch classes. -/
def scalePitchClasses (r : Nat) (offsets : List Nat) : List Int :=
  offsets.map (fun o => (((r + o) % 12 : Nat) : Int))

/-! ## Ticks spanned by the chord loops -/

@[simp] theorem totalTicks_nil : totalTicks [] = 0 := rfl

@[simp] theorem totalTicks_cons (e : Event) (evs : List Event) :
    totalTicks (e :: evs) = e.delta + totalTicks evs := by
  simp [totalTicks]

@[simp] theorem totalTicks_append (xs ys : List Event) :
    totalTicks (xs ++ ys) = totalTicks xs + totalTicks ys := by
  simp [totalTicks]

theorem noteOnLoop_zero (bump : Int) (ks : List Int) (i : Nat) :
    (noteOnLoop bump ks i 0).1 = 0 ∧ totalTicks (noteOnLoop bump ks i 0).2 = 0 := by
  induction ks generalizing i with
  | nil => simp [noteOnLoop]
  | cons k ks ih =>
    have h := ih (i + 1)
    simp [noteOnLoop, h.1, h.2]

theorem noteOnLoop_first (bump : Int) (k : Int) (ks : List Int) (tb : Nat) :
    (noteOnLoop bump (k :: ks) 0 tb).1 = 0 ∧
      totalTicks (noteOnLoop bump (k :: ks) 0 tb).2 = tb := by
  have h := noteOnLoop_zero bump ks 1
  simp [noteOnLoop, h.1, h.2]

theorem noteOffLoop_zero (bump : Int) (hold : Nat) (ks : List Int) (i : Nat) :
    (noteOffLoop bump hold ks (i + 1) 0).1 = 0 ∧
      totalTicks (noteOffLoop bump hold ks (i + 1) 0).2 = 0 := by
  induction ks generalizing i with
  | nil => simp [noteOffLoop]
  | cons k ks ih =>
    have h := ih (i + 1)
    simp [noteOffLoop, h.1, h.2]

theorem noteOffLoop_first (bump : Int) (hold : Nat) (k : Int) (ks : List Int) (tb : Nat) :
    (noteOffLoop bump hold (k :: ks) 0 tb).1 = 0 ∧
      totalTicks (noteOffLoop bump hold (k :: ks) 0 tb).2 = hold := by
  have h := noteOffLoop_zero bump hold ks 0
  simp [noteOffLoop, h.1, h.2]

theorem repeatedChordsLoop_ticks (rate : Nat) (k : Int) (ks : List Int) (todo : Nat) :
    (repeatedChordsLoop rate (k :: ks) todo 0).1 = 0 ∧
      totalTicks (repeatedChordsLoop rate (k :: ks) todo 0).2 = todo * rate := by
  induction todo with
  | zero => simp [repeatedChordsLoop]
  | succ n ih =>
    have a := noteOnLoop_first octaveBump k ks 0
    have b := noteOffLoop_first octaveBump rate k ks 0
    simp only [repeatedChordsLoop, a.1, b.1, ih.1, totalTicks_append, a.2, b.2, ih.2, true_and]
    ring

theorem downUpOnLoop_zero (bump : Int) (n : Nat) (ks : List Int) (i : Nat) :
    (downUpOnLoop bump n ks (i + 1) 0).1 = 0 ∧
      totalTicks (downUpOnLoop bump n ks (i + 1) 0).2 = 0 := by
  induction ks generalizing i with
  | nil => simp [downUpOnLoop]
  | cons k ks ih =>
    have h := ih (i + 1)
    simp [downUpOnLoop, h.1, h.2]

theorem downUpOnLoop_first (bump : Int) (n : Nat) (k : Int) (ks : List Int) (tb : Nat) :
    (downUpOnLoop bump n (k :: ks) 0 tb).1 = 0 ∧
      totalTicks (downUpOnLoop bump n (k :: ks) 0 tb).2 = tb := by
  have h := downUpOnLoop_zero bump n ks 0
  by_cases hn : n % 2 = 0 <;> simp [downUpOnLoop, hn, h.1, h.2]

theorem downUpOffLoop_zero (bump : Int) (rate n : Nat) (ks : List Int) (i : Nat) :
    (downUpOffLoop bump rate n ks (i + 1) 0).1 = 0 ∧
      totalTicks (downUpOffLoop bump rate n ks (i + 1) 0).2 = 0 := by
  induction ks generalizing i with
  | nil => simp [downUpOffLoop]
  | cons k ks ih =>
    have h := ih (i + 1)
    simp [downUpOffLoop, h.1, h.2]

theorem downUpOffLoop_first (bump : Int) (rate n : Nat) (k : Int) (ks : List Int) (tb : Nat) :
    (downUpOffLoop bump rate n (k :: ks) 0 tb).1 = 0 ∧
      totalTicks (downUpOffLoop bump rate n (k :: ks) 0 tb).2 = rate := by
  have h := downUpOffLoop_zero bump rate n ks 0
  by_cases hn : n % 2 = 0 <;> simp [downUpOffLoop, hn, h.1, h.2]

theorem downUpLoop_ticks (rate : Nat) (k : Int) (ks : List Int) (todo n : Nat) :
    (downUpLoop rate (k :: ks) todo n 0).1 = 0 ∧
      totalTicks (downUpLoop rate (k :: ks) todo n 0).2 = todo * rate := by
  induction todo generalizing n with
  | zero => simp [downUpLoop]
  | succ m ih =>
    have a := downUpOnLoop_first (octaveBump + ((n % 2 : Nat) : Int) * 12) n k ks 0
    have b := downUpOffLoop_first (octaveBump + ((n % 2 : Nat) : Int) * 12) rate n k ks 0
    have c := ih (n + 1)
    simp only [downUpLoop, a.1, b.1, c.1, totalTicks_append, a.2, b.2, c.2, true_and]
    ring

theorem repeats_no_wrap (ppq rate : Nat) (h : ppq < 2 ^ 30) :
    repeatedChordsRepeats ppq rate = ppq / rate * 2 ∧
      downUpRepeats ppq rate = ppq / rate * 4 := by
  have hle : ppq / rate ≤ ppq := Nat.div_le_self ppq rate
  constructor
  · exact Nat.mod_eq_of_lt (by omega)
  · exact Nat.mod_eq_of_lt (by omega)

theorem repeatedChords_ticks (ppq rate : Nat) (keys : List Int) (tb : Nat)
    (hkeys : keys ≠ []) (hrate : 0 < rate) :
    (repeatedChords ppq rate keys tb).isOk = true ∧
      totalTicks (repeatedChords ppq rate keys tb).events
        = repeatedChordsRepeats ppq rate * rate := by
  obtain ⟨k, ks, rfl⟩ := List.exists_cons_of_ne_nil hkeys
  have hr : rate ≠ 0 := Nat.pos_iff_ne_zero.mp hrate
  have a := repeatedChordsLoop_ticks rate k ks (repeatedChordsRepeats ppq rate)
  simp [repeatedChords, hr, Res.isOk, Res.events, a.2]

theorem downUp_ticks (ppq rate : Nat) (keys : List Int) (tb : Nat)
    (hkeys : keys ≠ []) (hrate : 0 < rate) :
    (downUp ppq rate keys tb).isOk = true ∧
      totalTicks (downUp ppq rate keys tb).events = downUpRepeats ppq rate * rate := by
  obtain ⟨k, ks, rfl⟩ := List.exists_cons_of_ne_nil hkeys
  have hr : rate ≠ 0 := Nat.pos_iff_ne_zero.mp hrate
  have b := downUpLoop_ticks rate k ks (downUpRepeats ppq rate) 0
  simp [downUp, hr, Res.isOk, Res.events, b.2]

/-! ## Matching of note-ons and note-offs in the improvisation -/

theorem releasesMatchedFrom_append (ch pitch : Int) (s : Bool) (xs ys : List Event) :
    releasesMatchedFrom ch pitch s (xs ++ ys)
      = (releasesMatchedFrom ch pitch s xs &&
          releasesMatchedFrom ch pitch (soundingAfter ch pitch s xs) ys) := by
  induction xs generalizing s with
  | nil => simp [releasesMatchedFrom, soundingAfter]
  | cons e xs ih =>
    rw [List.cons_append]
    simp only [releasesMatchedFrom, soundingAfter]
    split
    · exact ih true
    · split
      · rw [ih false, Bool.and_assoc]
      · exact ih s

theorem soundingAfter_append (ch pitch : Int) (s : Bool) (xs ys : List Event) :
    soundingAfter ch pitch s (xs ++ ys)
      = soundingAfter ch pitch (soundingAfter ch pitch s xs) ys := by
  induction xs generalizing s with
  | nil => simp [soundingAfter]
  | cons e xs ih =>
    rw [List.cons_append]
    simp only [soundingAfter]
    split
    · exact ih true
    · split
      · exact ih false
      · exact ih s

theorem stepEmit_releases (key key2 ch pitch : Int) (hne : key ≠ key2)
    (onA onB : Bool) (p : Press) (delta : Nat) :
    releasesMatchedFrom ch pitch (held key key2 ch pitch p)
        (stepEmit key key2 onA onB p delta).2 = true ∧
      soundingAfter ch pitch (held key key2 ch pitch p) (stepEmit key key2 onA onB p delta).2
        = held key key2 ch pitch (stepPress onA onB p) := by
  have hne2 : key2 ≠ key := fun h => hne h.symm
  by_cases hc : ch = 1 <;> by_cases h1 : pitch = key <;> by_cases h2 : pitch = key2 <;>
    cases onA <;> cases onB <;> cases ha : p.isAPressed <;> cases hb : p.isBPressed <;>
    simp_all [stepEmit, stepPress, emitIf, held, releasesMatchedFrom, soundingAfter,
      Msg.isOnFor, Msg.isOffFor]

theorem barLoop_releases (ppq : Nat) (key key2 ch pitch : Int) (hne : key ≠ key2)
    (beatsB rest : List Bool) (i : Nat) (p : Press) (delta : Nat)
    (hlen : i + rest.length ≤ beatsB.length) :
    ∃ q d evs, barLoop ppq key key2 beatsB rest i p delta = Res.ok (q, d) evs ∧
      releasesMatchedFrom ch pitch (held key key2 ch pitch p) evs = true ∧
      soundingAfter ch pitch (held key key2 ch pitch p) evs = held key key2 ch pitch q := by
  induction rest generalizing i p delta with
  | nil => exact ⟨p, delta, [], by simp [barLoop, releasesMatchedFrom, soundingAfter]⟩
  | cons onA rest ih =>
    simp only [List.length_cons] at hlen
    have hi : i < beatsB.length := by omega
    have hget : beatsB[i]? = some beatsB[i] := List.getElem?_eq_getElem hi
    have hs := stepEmit_releases key key2 ch pitch hne onA beatsB[i] p delta
    obtain ⟨q, d, evs, he, hm, hq⟩ := ih (i + 1) (stepPress onA beatsB[i] p)
      (nextDelta ppq (stepPress onA beatsB[i] p) (stepEmit key key2 onA beatsB[i] p delta).1)
      (by omega)
    refine ⟨q, d, (stepEmit key key2 onA beatsB[i] p delta).2 ++ evs, ?_, ?_, ?_⟩
    · simp only [barLoop, hget, he, Res.prepend]
    · rw [releasesMatchedFrom_append, hs.1, hs.2, hm]; rfl
    · rw [soundingAfter_append, hs.2, hq]

theorem improvBars_releases (ppq : Nat) (key key2 ch pitch : Int) (hne : key ≠ key2)
    (bars : List (List Bool × List Bool)) (p : Press)
    (hlen : ∀ bar ∈ bars, bar.1.length ≤ bar.2.length) :
    ∃ q evs, improvBars ppq key key2 bars p = Res.ok q evs ∧
      releasesMatchedFrom ch pitch (held key key2 ch pitch p) evs = true := by
  induction bars generalizing p with
  | nil => exact ⟨p, [], by simp [improvBars, releasesMatchedFrom]⟩
  | cons bar bars ih =>
    obtain ⟨q, d, evs, he, hm, hq⟩ := barLoop_releases ppq key key2 ch pitch hne bar.2 bar.1 0 p 0
      (by simpa using hlen bar (List.mem_cons_self _ _))
    obtain ⟨q2, evs2, he2, hm2⟩ := ih q (fun b hb => hlen b (List.mem_cons_of_mem _ hb))
    refine ⟨q2, evs ++ evs2, ?_, ?_⟩
    · simp only [improvBars, playBar, he, Res.andThen, he2, Res.prepend]
    · rw [releasesMatchedFrom_append, hm, hq, hm2]; rfl

theorem barLoop_final (ppq : Nat) (key key2 : Int) (beatsB rest : List Bool)
    (i : Nat) (p : Press) (delta : Nat) (q : Press) (d : Nat) (evs : List Event)
    (hlen : i + rest.length ≤ beatsB.length) (hne : rest ≠ [])
    (h : barLoop ppq key key2 beatsB rest i p delta = Res.ok (q, d) evs) :
    q.isAPressed = rest[rest.length - 1]?.getD false ∧
      q.isBPressed = beatsB[i + rest.length - 1]?.getD false := by
  induction rest generalizing i p delta evs with
  | nil => exact absurd rfl hne
  | cons onA rest ih =>
    simp only [List.length_cons] at hlen
    have hi : i < beatsB.length := by omega
    have hget : beatsB[i]? = some beatsB[i] := List.getElem?_eq_getElem hi
    simp only [barLoop, hget] at h
    cases hrec : barLoop ppq key key2 beatsB rest (i + 1) (stepPress onA beatsB[i] p)
        (nextDelta ppq (stepPress onA beatsB[i] p) (stepEmit key key2 onA beatsB[i] p delta).1) with
    | panic evs1 => simp [hrec, Res.prepend] at h
    | ok s evs1 =>
      rw [hrec] at h
      simp only [Res.prepend, Res.ok.injEq] at h
      cases rest with
      | nil =>
        simp only [barLoop, Res.ok.injEq] at hrec
        have hq : q = stepPress onA beatsB[i] p := by
          rw [← hrec.1] at h
          exact (Prod.mk.inj h.1).1.symm
        rw [hq]
        simp [stepPress, hget]
      | cons b rest =>
        have hs : s = (q, d) := h.1
        rw [hs] at hrec
        have hr := ih (i + 1) (stepPress onA beatsB[i] p) _ evs1 (by simp only [List.length_cons] at hlen ⊢; omega)
          (by simp) hrec
        simp only [List.length_cons] at hr ⊢
        constructor
        · rw [hr.1]
          simp
        · rw [hr.2]
          congr 2
          omega

theorem improvBars_sounding (ppq : Nat) (key key2 ch pitch : Int) (hne : key ≠ key2)
    (bars : List (List Bool × List Bool)) (p : Press)
    (hlen : ∀ bar ∈ bars, bar.1.length ≤ bar.2.length) :
    ∃ q evs, improvBars ppq key key2 bars p = Res.ok q evs ∧
      releasesMatchedFrom ch pitch (held key key2 ch pitch p) evs = true ∧
      soundingAfter ch pitch (held key key2 ch pitch p) evs = held key key2 ch pitch q ∧
      (∀ init last, bars = init ++ [last] → last.1 ≠ [] →
        q.isAPressed = last.1[last.1.length - 1]?.getD false ∧
        q.isBPressed = last.2[last.1.length - 1]?.getD false) := by
  induction bars generalizing p with
  | nil =>
    refine ⟨p, [], by simp [improvBars, releasesMatchedFrom, soundingAfter], ?_⟩
    refine ⟨rfl, rfl, ?_⟩
    intro init last h
    simp at h
  | cons bar bars ih =>
    have hbar : 0 + bar.1.length ≤ bar.2.length := by
      simpa using hlen bar (List.mem_cons_self _ _)
    obtain ⟨q, d, evs, he, hm, hq⟩ :=
      barLoop_releases ppq key key2 ch pitch hne bar.2 bar.1 0 p 0 hbar
    obtain ⟨q2, evs2, he2, hm2, hq2, hfin⟩ :=
      ih q (fun b hb => hlen b (List.mem_cons_of_mem _ hb))
    refine ⟨q2, evs ++ evs2, ?_, ?_, ?_, ?_⟩
    · simp only [improvBars, playBar, he, Res.andThen, he2, Res.prepend]
    · rw [releasesMatchedFrom_append, hm, hq, hm2]; rfl
    · rw [soundingAfter_append, hq, hq2]
    · intro init last h hl
      cases init with
      | nil =>
        simp only [List.nil_append, List.cons.injEq] at h
        obtain ⟨hb, hbs⟩ := h
        subst hbs
        subst hb
        simp only [improvBars, Res.ok.injEq] at he2
        rw [← he2.1]
        have hf := barLoop_final ppq key key2 bar.2 bar.1 0 p 0 q d evs hbar hl he
        simpa using hf
      | cons x init =>
        simp only [List.cons_append, List.cons.injEq] at h
        exact hfin init last h.2 hl

/-! ## Ticks accounted for by one bar of the improvisation -/

theorem stepEmit_ticks (key key2 : Int) (onA onB : Bool) (p : Press) (delta : Nat) :
    totalTicks (stepEmit key key2 onA onB p delta).2 + (stepEmit key key2 onA onB p delta).1
      = delta := by
  cases onA <;> cases onB <;> cases h1 : p.isAPressed <;> cases h2 : p.isBPressed <;>
    simp [stepEmit, stepPress, emitIf, h1, h2]

theorem stepEmit_active (key key2 : Int) (onA onB : Bool) (p : Press) (delta : Nat)
    (h : (onA || onB || p.isAPressed || p.isBPressed) = true) :
    (stepEmit key key2 onA onB p delta).1 = 0 := by
  cases onA <;> cases onB <;> cases h1 : p.isAPressed <;> cases h2 : p.isBPressed <;>
    simp_all [stepEmit, stepPress, emitIf]

theorem nextDelta_step (ppq : Nat) (key key2 : Int) (onA onB : Bool) (p : Press) (delta : Nat)
    (hb : delta + ppq / 4 < 2 ^ 32) :
    totalTicks (stepEmit key key2 onA onB p delta).2
        + nextDelta ppq (stepPress onA onB p) (stepEmit key key2 onA onB p delta).1
      = delta + ppq / 4 := by
  have ht := stepEmit_ticks key key2 onA onB p delta
  by_cases h : (onA || onB || p.isAPressed || p.isBPressed) = true
  · have h0 := stepEmit_active key key2 onA onB p delta h
    have hn : nextDelta ppq (stepPress onA onB p) (stepEmit key key2 onA onB p delta).1
        = ppq / 4 := by
      simp only [nextDelta, stepPress, h, if_true]
    rw [hn]; omega
  · have hn : nextDelta ppq (stepPress onA onB p) (stepEmit key key2 onA onB p delta).1
        = ((stepEmit key key2 onA onB p delta).1 + ppq / 4) % 2 ^ 32 := by
      simp only [nextDelta, stepPress, h]
      simp
    rw [hn, Nat.mod_eq_of_lt (by omega)]; omega

theorem barLoop_ticks (ppq : Nat) (key key2 : Int) (beatsB : List Bool) (rest : List Bool)
    (i : Nat) (p : Press) (delta : Nat)
    (hlen : i + rest.length ≤ beatsB.length)
    (hb : delta + rest.length * (ppq / 4) < 2 ^ 32) :
    ∃ q d evs, barLoop ppq key key2 beatsB rest i p delta = Res.ok (q, d) evs ∧
      totalTicks evs + d = delta + rest.length * (ppq / 4) := by
  induction rest generalizing i p delta with
  | nil => exact ⟨p, delta, [], by simp [barLoop]⟩
  | cons onA rest ih =>
    simp only [List.length_cons] at hlen hb
    have hi : i < beatsB.length := by omega
    have hget : beatsB[i]? = some beatsB[i] := List.getElem?_eq_getElem hi
    have hstep := nextDelta_step ppq key key2 onA beatsB[i] p delta
      (by rw [Nat.add_mul, Nat.one_mul] at hb; omega)
    obtain ⟨q, d, evs, he, ht⟩ := ih (i + 1) (stepPress onA beatsB[i] p)
      (nextDelta ppq (stepPress onA beatsB[i] p) (stepEmit key key2 onA beatsB[i] p delta).1)
      (by omega) (by
        rw [Nat.add_mul, Nat.one_mul] at hb
        omega)
    refine ⟨q, d, (stepEmit key key2 onA beatsB[i] p delta).2 ++ evs, ?_, ?_⟩
    · simp only [barLoop, hget, he, Res.prepend]
    · rw [totalTicks_append, List.length_cons, Nat.add_mul, Nat.one_mul]
      omega

/-! ## The loops of `playProgression` -/

theorem progressionLoop_skip (T : Theory) (fn : List Int → Nat → Res Nat) (first : Bool)
    (k : Int) (ks : List Int) (tb : Nat) (h : failsToResolve T k = true) :
    progressionLoop T fn first (k :: ks) tb = progressionLoop T fn first ks tb := by
  unfold failsToResolve at h
  cases hn : progressionChordName T k with
  | none => simp [hn] at h
  | some name =>
    simp only [hn, Bool.and_eq_true, Option.isNone_iff_eq_none] at h
    have hr : (index? T.romanNumerals k).isNone = false := by
      cases hx : index? T.romanNumerals k <;> simp_all
    simp [progressionLoop, hn, hr, h.2]

theorem progressionLoop_filter (T : Theory) (fn : List Int → Nat → Res Nat) (first : Bool)
    (prog : List Int) (tb : Nat) :
    progressionLoop T fn first prog tb
      = progressionLoop T fn first (prog.filter (fun k => !failsToResolve T k)) tb := by
  induction prog generalizing tb with
  | nil => rfl
  | cons k ks ih =>
    by_cases h : failsToResolve T k = true
    · rw [progressionLoop_skip T fn first k ks tb h, ih tb]
      simp [List.filter_cons, h]
    · have hk : (!failsToResolve T k) = true := by simp [h]
      rw [List.filter_cons_of_pos (p := fun k => !failsToResolve T k) hk]
      simp only [progressionLoop, ih]

theorem arpsLoop_filter (T : Theory) (prog : List Int)
    (fns : List (List Int → Nat → Res Nat)) (i tb : Nat) :
    arpsLoop T prog fns i tb
      = arpsLoop T (prog.filter (fun k => !failsToResolve T k)) fns i tb := by
  induction fns generalizing i tb with
  | nil => rfl
  | cons fn fns ih =>
    simp only [arpsLoop, ih]
    rw [progressionLoop_filter]

theorem progressionLoop_events (T : Theory) (fn : List Int → Nat → Res Nat) (first : Bool)
    (hfn : Steady fn) (prog : List Int) (tb : Nat)
    (hT : ∀ k ∈ prog, (progressionChordName T k).isSome = true ∧
      (index? T.romanNumerals k).isSome = true) :
    ∃ tb1, progressionLoop T fn first prog tb
      = Res.ok tb1 ((prog.filterMap (slotChord T)).flatMap (fun c => (fn c 0).events)) := by
  induction prog generalizing tb with
  | nil => exact ⟨tb, rfl⟩
  | cons k ks ih =>
    have hk := hT k (List.mem_cons_self _ _)
    have hks : ∀ k ∈ ks, (progressionChordName T k).isSome = true ∧
        (index? T.romanNumerals k).isSome = true :=
      fun x hx => hT x (List.mem_cons_of_mem _ hx)
    obtain ⟨name, hn⟩ := Option.isSome_iff_exists.mp hk.1
    have hr : (index? T.romanNumerals k).isNone = false := by
      cases hx : index? T.romanNumerals k <;> simp_all
    cases hc : T.newChordFromAbbrev name with
    | none =>
      obtain ⟨tb1, h1⟩ := ih tb hks
      refine ⟨tb1, ?_⟩
      simp [progressionLoop, hn, hr, hc, h1, slotChord]
    | some c =>
      obtain ⟨tb0, h0⟩ := hfn c tb
      obtain ⟨tb1, h1⟩ := ih tb0 hks
      refine ⟨tb1, ?_⟩
      simp [progressionLoop, hn, hr, hc, h0, h1, slotChord, Res.andThen, Res.prepend]

theorem arpsLoop_events (T : Theory) (prog : List Int)
    (hT : ∀ k ∈ prog, (progressionChordName T k).isSome = true ∧
      (index? T.romanNumerals k).isSome = true)
    (fns : List (List Int → Nat → Res Nat)) (hfns : ∀ fn ∈ fns, Steady fn) (i tb : Nat) :
    ∃ tb1, arpsLoop T prog fns i tb
      = Res.ok tb1 (fns.flatMap (fun fn =>
          (prog.filterMap (slotChord T)).flatMap (fun c => (fn c 0).events))) := by
  induction fns generalizing i tb with
  | nil => exact ⟨tb, rfl⟩
  | cons fn fns ih =>
    obtain ⟨tb0, h0⟩ := progressionLoop_events T fn (i == 0)
      (hfns fn (List.mem_cons_self _ _)) prog tb hT
    obtain ⟨tb1, h1⟩ := ih (fun g hg => hfns g (List.mem_cons_of_mem _ hg)) (i + 1) tb0
    refine ⟨tb1, ?_⟩
    simp [arpsLoop, h0, h1, Res.andThen, Res.prepend]

theorem repeatedChords_steady (ppq rate : Nat) (h : rate ≠ 0) :
    Steady (repeatedChords ppq rate) := by
  intro c tb
  exact ⟨(repeatedChordsLoop rate c (repeatedChordsRepeats ppq rate) 0).1,
    by simp [repeatedChords, h, Res.events]⟩

theorem downUp_steady (ppq rate : Nat) (h : rate ≠ 0) : Steady (downUp ppq rate) := by
  intro c tb
  exact ⟨(downUpLoop rate c (downUpRepeats ppq rate) 0 0).1,
    by simp [downUp, h, Res.events]⟩

theorem arps_steady (ppq : Nat) (hpos : 0 < ppq) (heven : ppq % 2 = 0) (hlt : ppq < 2 ^ 31) :
    ∀ fn ∈ arps ppq, Steady fn := by
  intro fn hfn
  simp only [arps, List.mem_cons, List.mem_singleton, List.not_mem_nil, or_false] at hfn
  rcases hfn with h | h | h | h <;> subst h
  · exact repeatedChords_steady ppq _ (by omega)
  · exact repeatedChords_steady ppq _ (by omega)
  · exact downUp_steady ppq _ (by omega)
  · exact downUp_steady ppq _ (by omega)

/-! ## The loops of `playScaleChords` -/

theorem noteOffLoop_start (bump : Int) (hold : Nat) (c : List Int) :
    (noteOffLoop bump hold c 0 0).1 = 0 := by
  cases c with
  | nil => rfl
  | cons k ks => exact (noteOffLoop_first bump hold k ks 0).1

theorem cadence_some (ppq : Nat) (c : List Int) :
    cadence ppq (some c) 0 = Res.ok 0 (cadenceBlock ppq c) := by
  cases c with
  | nil => rfl
  | cons k ks =>
    have h := (noteOffLoop_first 24 ((ppq * 2) % 2 ^ 32) k ks
      (cadenceOnLoop ppq (k :: ks) 0 0).1).1
    simp only [cadence, cadenceBlock, h]

theorem walkLoop_step (ppq : Nat) (T : Theory) (keys : List Int) (q : Nat) (r : String)
    (rs : List String) (i : Nat) (fc : Option (List Int)) (c : List Int)
    (hc : degreeChord T keys i q = some c) :
    walkLoop ppq T keys q (r :: rs) i fc 0
      = Res.prepend (chordBlock ppq c)
          (walkLoop ppq T keys q rs (i + 1) (if i = 0 then some c else fc) 0) := by
  unfold degreeChord at hc
  cases hrow : T.richScaleChords[i]? with
  | none => simp [hrow] at hc
  | some row =>
    simp only [hrow] at hc
    cases hname : scaleChordName T keys row i q with
    | none => simp [hname] at hc
    | some name =>
      simp only [hname] at hc
      have hi : ¬ i > T.richScaleChords.length := by
        have := (List.getElem?_eq_some_iff.mp hrow).1
        omega
      have hq : ¬ q > row.length := by
        unfold scaleChordName at hname
        cases hk : keys[i]? with
        | none => simp [hk] at hname
        | some key =>
          cases hnote : index? T.notes (Int.tmod key 12) with
          | none => simp [hk, hnote] at hname
          | some note =>
            cases hrq : row[q]? with
            | none => simp [hk, hnote, hrq] at hname
            | some quality =>
              have := (List.getElem?_eq_some_iff.mp hrq).1
              omega
      have h0 := (noteOnLoop_zero octaveBump c 0).1
      have h1 := noteOffLoop_start octaveBump ((ppq * 2) % 2 ^ 32) c
      simp only [walkLoop, hi, hq, hrow, hname, hc, if_false, chordBlock, h0, h1]

theorem walkLoop_tail (ppq : Nat) (T : Theory) (keys : List Int) (q : Nat)
    (rs : List String) (i : Nat) (fc : Option (List Int))
    (hres : ∀ j, i + 1 ≤ j → j < i + 1 + rs.length → (degreeChord T keys j q).isSome = true) :
    walkLoop ppq T keys q rs (i + 1) fc 0
      = Res.ok (fc, 0) (walkBlocks ppq T keys q (i + 1) rs.length) := by
  induction rs generalizing i with
  | nil => rfl
  | cons r rs ih =>
    obtain ⟨c, hc⟩ := Option.isSome_iff_exists.mp
      (hres (i + 1) (Nat.le_refl _) (by simp))
    rw [walkLoop_step ppq T keys q r rs (i + 1) fc c hc]
    have hrest := ih (i + 1) (fun j h1 h2 => hres j (by omega) (by simp; omega))
    simp only [Nat.add_eq_zero, one_ne_zero, and_false, if_false] at hrest ⊢
    rw [hrest]
    simp [Res.prepend, walkBlocks, List.range'_succ, hc]

theorem walkLoop_events (ppq : Nat) (T : Theory) (keys : List Int) (q : Nat)
    (r : String) (rs : List String) (fc : Option (List Int))
    (hres : ∀ j, j < (r :: rs).length → (degreeChord T keys j q).isSome = true) :
    walkLoop ppq T keys q (r :: rs) 0 fc 0
      = Res.ok (degreeChord T keys 0 q, 0) (walkBlocks ppq T keys q 0 (r :: rs).length) := by
  obtain ⟨c, hc⟩ := Option.isSome_iff_exists.mp (hres 0 (by simp))
  rw [walkLoop_step ppq T keys q r rs 0 fc c hc]
  have hrest := walkLoop_tail ppq T keys q rs 0 (some c)
    (fun j h1 h2 => hres j (by simp; omega))
  simp only [Nat.zero_add] at hrest
  simp only [if_true, Nat.zero_add, hrest]
  simp [Res.prepend, walkBlocks, List.range'_succ, hc]

theorem qualityLoop_events (ppq : Nat) (T : Theory) (keys : List Int)
    (r : String) (rs : List String) (hr : T.romanNumerals = r :: rs)
    (todo q : Nat) (fc : Option (List Int))
    (hres : ∀ j, j < T.romanNumerals.length → ∀ x, x < q + todo →
      (degreeChord T keys j x).isSome = true) :
    ∃ s, qualityLoop ppq T keys todo q fc 0
      = Res.ok (s, 0) ((List.range' q todo).flatMap
          (passEvents ppq T keys T.romanNumerals.length)) := by
  induction todo generalizing q fc with
  | zero => exact ⟨fc, rfl⟩
  | succ n ih =>
    have hw := walkLoop_events ppq T keys q r rs fc
      (fun j hj => hres j (by rw [hr]; exact hj) q (by omega))
    obtain ⟨c, hc⟩ := Option.isSome_iff_exists.mp
      (hres 0 (by rw [hr]; simp) q (by omega))
    obtain ⟨s, hs⟩ := ih (q + 1) (some c) (fun j hj x hx => hres j hj x (by omega))
    refine ⟨s, ?_⟩
    simp only [qualityLoop, hr, hw, Res.andThen, hc, cadence_some, Res.prepend]
    rw [hr] at hs
    simp only [hs, Res.prepend]
    simp [List.range'_succ, passEvents, hc, List.append_assoc]

/-! ## Step-by-step account of a bar -/

theorem stepEmit_eq_stamp (key key2 : Int) (onA onB : Bool) (p : Press) (delta : Nat) :
    (stepEmit key key2 onA onB p delta).2 = stamp delta (stepMsgs key key2 onA onB p) := by
  cases onA <;> cases onB <;> cases h1 : p.isAPressed <;> cases h2 : p.isBPressed <;>
    simp [stepEmit, stepPress, emitIf, stepMsgs, stamp, h1, h2]

theorem barLoop_eq_barSteps (ppq : Nat) (key key2 : Int) (beatsB rest : List Bool)
    (i : Nat) (p : Press) (delta : Nat) (hlen : i + rest.length ≤ beatsB.length) :
    ∃ s, barLoop ppq key key2 beatsB rest i p delta
      = Res.ok s (stepsEvents (barSteps ppq key key2 (rest.zip (beatsB.drop i)) p delta)) := by
  induction rest generalizing i p delta with
  | nil => exact ⟨(p, delta), by simp [barLoop, barSteps, stepsEvents]⟩
  | cons onA rest ih =>
    simp only [List.length_cons] at hlen
    have hi : i < beatsB.length := by omega
    have hget : beatsB[i]? = some beatsB[i] := List.getElem?_eq_getElem hi
    have hdrop : beatsB.drop i = beatsB[i] :: beatsB.drop (i + 1) :=
      List.drop_eq_getElem_cons hi
    obtain ⟨s, hs⟩ := ih (i + 1) (stepPress onA beatsB[i] p)
      (nextDelta ppq (stepPress onA beatsB[i] p) (stepEmit key key2 onA beatsB[i] p delta).1)
      (by omega)
    refine ⟨s, ?_⟩
    simp only [barLoop, hget, hs, Res.prepend, hdrop, List.zip_cons_cons, barSteps, stepsEvents,
      List.flatMap_cons]

theorem playBar_eq_barSteps (ppq : Nat) (key key2 : Int) (beatsA beatsB : List Bool)
    (p : Press) (hlen : beatsA.length ≤ beatsB.length) :
    ∃ s, playBar ppq key key2 beatsA beatsB p
      = Res.ok s (stepsEvents (barSteps ppq key key2 (beatsA.zip beatsB) p 0)) := by
  have h := barLoop_eq_barSteps ppq key key2 beatsB beatsA 0 p 0 (by omega)
  simpa [playBar] using h

theorem barSteps_reads (ppq : Nat) (key key2 : Int) (l : List (Bool × Bool)) (p : Press)
    (delta : Nat) :
    (barSteps ppq key key2 l p delta).map (fun s => (s.onA, s.onB)) = l := by
  induction l generalizing p delta with
  | nil => rfl
  | cons s rest ih => simp [barSteps, ih]

theorem barSteps_events (ppq : Nat) (key key2 : Int) (l : List (Bool × Bool)) (p : Press)
    (delta : Nat) :
    ∀ st ∈ barSteps ppq key key2 l p delta,
      st.events = stamp st.delta (stepMsgs key key2 st.onA st.onB st.press) := by
  induction l generalizing p delta with
  | nil => simp [barSteps]
  | cons s rest ih =>
    intro st hst
    simp only [barSteps, List.mem_cons] at hst
    rcases hst with h | h
    · subst h
      exact stepEmit_eq_stamp key key2 s.1 s.2 p delta
    · exact ih _ _ st h

theorem barSteps_head (ppq : Nat) (key key2 : Int) (l : List (Bool × Bool)) (p : Press)
    (delta : Nat) (st : StepRecord) (post : List StepRecord)
    (h : barSteps ppq key key2 l p delta = st :: post) :
    st.press = p ∧ st.delta = delta := by
  cases l with
  | nil => simp [barSteps] at h
  | cons s rest =>
    simp only [barSteps, List.cons.injEq] at h
    rw [← h.1]
    exact ⟨rfl, rfl⟩

theorem barSteps_press (ppq : Nat) (key key2 : Int) (l : List (Bool × Bool)) (p : Press)
    (delta : Nat) (pre : List StepRecord) (s1 s2 : StepRecord) (post : List StepRecord)
    (h : barSteps ppq key key2 l p delta = pre ++ s1 :: s2 :: post) :
    s2.press.isAPressed = s1.onA ∧ s2.press.isBPressed = s1.onB := by
  induction l generalizing p delta pre with
  | nil => simp [barSteps] at h
  | cons s rest ih =>
    cases pre with
    | nil =>
      simp only [barSteps, List.nil_append, List.cons.injEq] at h
      have hh := barSteps_head ppq key key2 rest _ _ s2 post h.2
      rw [hh.1, ← h.1]
      exact ⟨rfl, rfl⟩
    | cons x pre =>
      simp only [barSteps, List.cons_append, List.cons.injEq] at h
      exact ih _ _ pre h.2

theorem barSteps_ticks (ppq : Nat) (key key2 : Int) (l : List (Bool × Bool)) (p : Press)
    (delta : Nat) (hb : delta + l.length * (ppq / 4) < 2 ^ 32)
    (pre : List StepRecord) (st : StepRecord) (post : List StepRecord)
    (h : barSteps ppq key key2 l p delta = pre ++ st :: post) :
    totalTicks (stepsEvents pre) + st.delta = delta + pre.length * (ppq / 4) := by
  induction l generalizing p delta pre with
  | nil => simp [barSteps] at h
  | cons s rest ih =>
    rw [List.length_cons, Nat.add_mul, Nat.one_mul] at hb
    cases pre with
    | nil =>
      have hh := barSteps_head ppq key key2 (s :: rest) p delta st post h
      simp [stepsEvents, hh.2]
    | cons x pre =>
      simp only [barSteps, List.cons_append, List.cons.injEq] at h
      have hstep := nextDelta_step ppq key key2 s.1 s.2 p delta (by omega)
      have hrec := ih (stepPress s.1 s.2 p)
        (nextDelta ppq (stepPress s.1 s.2 p) (stepEmit key key2 s.1 s.2 p delta).1)
        (by omega) pre h.2
      have hx : x.events = (stepEmit key key2 s.1 s.2 p delta).2 := by rw [← h.1]
      simp only [stepsEvents, List.flatMap_cons, totalTicks_append, List.length_cons, hx] at hrec ⊢
      rw [Nat.add_mul, Nat.one_mul]
      omega

theorem totalTicks_zero (l : List Event) (h : ∀ e ∈ l, e.delta = 0) : totalTicks l = 0 := by
  induction l with
  | nil => rfl
  | cons e l ih =>
    rw [totalTicks_cons, h e (List.mem_cons_self _ _),
      ih (fun x hx => h x (List.mem_cons_of_mem _ hx))]

theorem stamp_prefix_ticks (delta : Nat) (ms : List Msg) (e1 : List Event) (e : Event)
    (e2 : List Event) (h : stamp delta ms = e1 ++ e :: e2) :
    totalTicks (e1 ++ [e]) = delta := by
  cases ms with
  | nil => simp [stamp] at h
  | cons m ms =>
    cases e1 with
    | nil =>
      simp only [stamp, List.nil_append, List.cons.injEq] at h
      simp [← h.1]
    | cons x e1 =>
      simp only [stamp, List.cons_append, List.cons.injEq] at h
      have hz : totalTicks (e1 ++ [e]) = 0 := by
        apply totalTicks_zero
        intro y hy
        have hy2 : y ∈ ms.map (fun x => (⟨0, x⟩ : Event)) := by
          rw [h.2]
          simp only [List.mem_append, List.mem_singleton] at hy
          rcases hy with hy | hy
          · exact List.mem_append_left _ hy
          · exact List.mem_append_right _ (by rw [hy]; exact List.mem_cons_self _ _)
        obtain ⟨z, _, hz⟩ := List.mem_map.mp hy2
        rw [← hz]
      rw [List.cons_append, totalTicks_cons, hz, ← h.1]
      rfl

theorem stepMsgs_eq_nil (key key2 : Int) (onA onB : Bool) (p : Press) :
    stepMsgs key key2 onA onB p = [] ↔
      (onA = false ∧ onB = false ∧ p.isAPressed = false ∧ p.isBPressed = false) := by
  cases onA <;> cases onB <;> cases h1 : p.isAPressed <;> cases h2 : p.isBPressed <;>
    simp [stepMsgs, h1, h2]

theorem stamp_eq_nil (delta : Nat) (ms : List Msg) : stamp delta ms = [] ↔ ms = [] := by
  cases ms <;> simp [stamp]

theorem barSteps_countNoteOns (ppq : Nat) (key key2 : Int) (l : List (Bool × Bool))
    (p : Press) (delta : Nat) :
    countNoteOns (stepsEvents (barSteps ppq key key2 l p delta))
      = (l.map Prod.fst).count true + (l.map Prod.snd).count true := by
  induction l generalizing p delta with
  | nil => rfl
  | cons s rest ih =>
    have hs : countNoteOns (stepEmit key key2 s.1 s.2 p delta).2
        = (if s.1 then 1 else 0) + (if s.2 then 1 else 0) := by
      cases s.1 <;> cases s.2 <;> cases h1 : p.isAPressed <;> cases h2 : p.isBPressed <;>
        simp [stepEmit, stepPress, emitIf, countNoteOns, Msg.isNoteOn, h1, h2]
    have hr := ih (stepPress s.1 s.2 p)
      (nextDelta ppq (stepPress s.1 s.2 p) (stepEmit key key2 s.1 s.2 p delta).1)
    simp only [countNoteOns, stepsEvents] at hs hr ⊢
    simp only [barSteps, List.flatMap_cons, List.countP_append, hs, hr, List.map_cons,
      List.count_cons]
    cases s.1 <;> cases s.2 <;> simp <;> omega

theorem barSteps_countNoteOffs (ppq : Nat) (key key2 : Int) (hne : key ≠ key2)
    (l : List (Bool × Bool)) (p : Press) (delta : Nat) :
    countNoteOffs 1 key (stepsEvents (barSteps ppq key key2 l p delta))
      = releases p.isAPressed (l.map Prod.fst) ∧
    countNoteOffs 1 key2 (stepsEvents (barSteps ppq key key2 l p delta))
      = releases p.isBPressed (l.map Prod.snd) := by
  have hne2 : key2 ≠ key := fun h => hne h.symm
  induction l generalizing p delta with
  | nil => exact ⟨rfl, rfl⟩
  | cons s rest ih =>
    have hs : countNoteOffs 1 key (stepEmit key key2 s.1 s.2 p delta).2
        = (if p.isAPressed && !s.1 then 1 else 0) ∧
        countNoteOffs 1 key2 (stepEmit key key2 s.1 s.2 p delta).2
        = (if p.isBPressed && !s.2 then 1 else 0) := by
      cases s.1 <;> cases s.2 <;> cases h1 : p.isAPressed <;> cases h2 : p.isBPressed <;>
        simp [stepEmit, stepPress, emitIf, countNoteOffs, Msg.isOffFor, h1, h2, hne, hne2]
    have hr := ih (stepPress s.1 s.2 p)
      (nextDelta ppq (stepPress s.1 s.2 p) (stepEmit key key2 s.1 s.2 p delta).1)
    simp only [countNoteOffs, stepsEvents] at hs hr ⊢
    simp only [barSteps, List.flatMap_cons, List.countP_append, hs.1, hs.2, List.map_cons,
      releases]
    rw [hr.1, hr.2]
    exact ⟨rfl, rfl⟩

theorem barSteps_silent (ppq : Nat) (key key2 : Int) (n : Nat) (p : Press) (delta : Nat)
    (hA : p.isAPressed = false) (hB : p.isBPressed = false) :
    stepsEvents (barSteps ppq key key2 (List.replicate n (false, false)) p delta) = [] := by
  induction n generalizing p delta with
  | zero => rfl
  | succ n ih =>
    have hs : (stepEmit key key2 false false p delta).2 = [] := by
      simp [stepEmit, stepPress, emitIf, hA, hB]
    have hr := ih (stepPress false false p)
      (nextDelta ppq (stepPress false false p) (stepEmit key key2 false false p delta).1)
      rfl rfl
    simp only [stepsEvents] at hr ⊢
    simp only [List.replicate_succ, barSteps, List.flatMap_cons, hs, hr, List.append_nil]

theorem zip_silent (beatsA beatsB : List Bool) (hA : beatsA.length = 16)
    (hB : beatsB.length = 16) (hoffA : ∀ b ∈ beatsA, b = false)
    (hoffB : ∀ b ∈ beatsB, b = false) :
    beatsA.zip beatsB = List.replicate 16 (false, false) := by
  have h1 : beatsA = List.replicate 16 false := List.eq_replicate_iff.mpr ⟨hA, hoffA⟩
  have h2 : beatsB = List.replicate 16 false := List.eq_replicate_iff.mpr ⟨hB, hoffB⟩
  rw [h1, h2]
  rfl

/-! ## The messages of the textures -/

theorem noteOnLoop_msgs (bump : Int) (ks : List Int) (i tb : Nat) :
    (noteOnLoop bump ks i tb).2.map Event.msg = ks.map (fun k => Msg.noteOn 1 (k + bump) 99) := by
  induction ks generalizing i tb with
  | nil => rfl
  | cons k ks ih => simp [noteOnLoop, ih]

theorem noteOffLoop_msgs (bump : Int) (hold : Nat) (ks : List Int) (i tb : Nat) :
    (noteOffLoop bump hold ks i tb).2.map Event.msg
      = ks.map (fun k => Msg.noteOff 1 (k + bump)) := by
  induction ks generalizing i tb with
  | nil => rfl
  | cons k ks ih => simp [noteOffLoop, ih]

theorem repeatedChordsLoop_msgs (rate : Nat) (keys : List Int) (todo tb : Nat) :
    (repeatedChordsLoop rate keys todo tb).2.map Event.msg
      = (List.range todo).flatMap (fun _ => repeatMsgs (keys.map (fun k => k + 24))) := by
  induction todo generalizing tb with
  | zero => rfl
  | succ n ih =>
    simp only [repeatedChordsLoop, List.map_append, noteOnLoop_msgs, noteOffLoop_msgs, ih]
    rw [List.range_succ_eq_map, List.flatMap_cons]
    simp [repeatMsgs, octaveBump, List.flatMap_map, Function.comp_def]

theorem downUpOnLoop_tail_msgs (bump : Int) (n : Nat) (ks : List Int) (i tb : Nat) :
    (downUpOnLoop bump n ks (i + 1) tb).2.map Event.msg
      = ks.map (fun k => Msg.noteOn 1 (k + bump) 99) := by
  induction ks generalizing i tb with
  | nil => rfl
  | cons k ks ih => simp [downUpOnLoop, ih]

theorem downUpOffLoop_tail_msgs (bump : Int) (rate n : Nat) (ks : List Int) (i tb : Nat) :
    (downUpOffLoop bump rate n ks (i + 1) tb).2.map Event.msg
      = ks.map (fun k => Msg.noteOff 1 (k + bump)) := by
  induction ks generalizing i tb with
  | nil => rfl
  | cons k ks ih => simp [downUpOffLoop, ih]

theorem downUp_repeat_msgs (rate : Nat) (keys : List Int) (n tb tb2 : Nat) :
    (downUpOnLoop (octaveBump + ((n % 2 : Nat) : Int) * 12) n keys 0 tb).2.map Event.msg ++
      (downUpOffLoop (octaveBump + ((n % 2 : Nat) : Int) * 12) rate n keys 0 tb2).2.map Event.msg
      = repeatMsgs (downUpPitches keys n) := by
  cases keys with
  | nil => rfl
  | cons k0 ks =>
    rcases Nat.mod_two_eq_zero_or_one n with h | h
    · simp [downUpOnLoop, downUpOffLoop, h, repeatMsgs, downUpPitches, octaveBump]
      omega
    · have h0 : ¬ n % 2 = 0 := by omega
      have e : k0 - 12 + 36 = k0 + 24 := by omega
      simp [downUpOnLoop, downUpOffLoop, h, repeatMsgs, downUpPitches, octaveBump,
        downUpOnLoop_tail_msgs, downUpOffLoop_tail_msgs, e, Function.comp_def]

theorem downUpLoop_msgs (rate : Nat) (keys : List Int) (todo n tb : Nat) :
    (downUpLoop rate keys todo n tb).2.map Event.msg
      = (List.range' n todo).flatMap (fun m => repeatMsgs (downUpPitches keys m)) := by
  induction todo generalizing n tb with
  | zero => rfl
  | succ t ih =>
    simp only [downUpLoop, List.map_append, ih, List.range'_succ, List.flatMap_cons]
    rw [downUp_repeat_msgs]

theorem repeatedChords_msgs (ppq rate : Nat) (keys : List Int) (tb : Nat) :
    (repeatedChords ppq rate keys tb).events.map Event.msg
      = (List.range (repeatedChordsRepeats ppq rate)).flatMap
          (fun _ => repeatMsgs (keys.map (fun k => k + 24))) := by
  by_cases h : rate = 0
  · subst h
    simp [repeatedChords, Res.events, repeatedChordsRepeats]
  · simp only [repeatedChords, h, if_false, Res.events, repeatedChordsLoop_msgs]

theorem downUp_msgs (ppq rate : Nat) (keys : List Int) (tb : Nat) :
    (downUp ppq rate keys tb).events.map Event.msg
      = (List.range (downUpRepeats ppq rate)).flatMap
          (fun n => repeatMsgs (downUpPitches keys n)) := by
  by_cases h : rate = 0
  · subst h
    simp [downUp, Res.events, downUpRepeats]
  · simp only [downUp, h, if_false, Res.events, downUpLoop_msgs, List.range_eq_range']

theorem balancedFrom_on (ch pitch x : Int) (c : Nat) (ms : List Msg) :
    balancedFrom ch pitch c (Msg.noteOn 1 x 99 :: ms)
      = balancedFrom ch pitch (c + if decide (ch = 1 ∧ pitch = x) then 1 else 0) ms := by
  by_cases h : ch = 1 ∧ pitch = x
  · simp [balancedFrom, Msg.isOnFor, h]
  · simp [balancedFrom, Msg.isOnFor, Msg.isOffFor, h]

theorem balancedFrom_off (ch pitch x : Int) (c : Nat) (ms : List Msg) :
    balancedFrom ch pitch (c + if decide (ch = 1 ∧ pitch = x) then 1 else 0)
        (Msg.noteOff 1 x :: ms)
      = balancedFrom ch pitch c ms := by
  by_cases h : ch = 1 ∧ pitch = x
  · simp [balancedFrom, Msg.isOnFor, Msg.isOffFor, h]
  · simp [balancedFrom, Msg.isOnFor, Msg.isOffFor, h]

theorem balancedFrom_ons (ch pitch : Int) (ps : List Int) (c : Nat) (rest : List Msg) :
    balancedFrom ch pitch c (ps.map (fun x => Msg.noteOn 1 x 99) ++ rest)
      = balancedFrom ch pitch (c + ps.countP (fun x => decide (ch = 1 ∧ pitch = x))) rest := by
  induction ps generalizing c with
  | nil => rfl
  | cons x ps ih =>
    rw [List.map_cons, List.cons_append, balancedFrom_on, ih, List.countP_cons]
    congr 1
    omega

theorem balancedFrom_offs (ch pitch : Int) (ps : List Int) (c : Nat) (rest : List Msg) :
    balancedFrom ch pitch (c + ps.countP (fun x => decide (ch = 1 ∧ pitch = x)))
        (ps.map (fun x => Msg.noteOff 1 x) ++ rest)
      = balancedFrom ch pitch c rest := by
  induction ps generalizing c with
  | nil => rfl
  | cons x ps ih =>
    have hc : c + (x :: ps).countP (fun x => decide (ch = 1 ∧ pitch = x))
        = (c + ps.countP (fun x => decide (ch = 1 ∧ pitch = x)))
          + (if decide (ch = 1 ∧ pitch = x) then 1 else 0) := by
      rw [List.countP_cons]
      omega
    rw [hc, List.map_cons, List.cons_append, balancedFrom_off, ih]

theorem neutral_nil : Neutral [] := by
  intro ch pitch c rest
  rfl

theorem neutral_append (xs ys : List Msg) (hx : Neutral xs) (hy : Neutral ys) :
    Neutral (xs ++ ys) := by
  intro ch pitch c rest
  rw [List.append_assoc, hx, hy]

theorem neutral_repeatMsgs (ps : List Int) : Neutral (repeatMsgs ps) := by
  intro ch pitch c rest
  rw [repeatMsgs, List.append_assoc, balancedFrom_ons, balancedFrom_offs]

theorem neutral_flatMap {α : Type} (l : List α) (f : α → List Msg)
    (h : ∀ a, Neutral (f a)) : Neutral (l.flatMap f) := by
  induction l with
  | nil => exact neutral_nil
  | cons a l ih =>
    rw [List.flatMap_cons]
    exact neutral_append _ _ (h a) ih

theorem events_prepend {σ : Type} (pre : List Event) (r : Res σ) :
    (Res.prepend pre r).events = pre ++ r.events := by
  cases r <;> rfl

theorem progressionLoop_neutral (T : Theory) (fn : List Int → Nat → Res Nat) (first : Bool)
    (hfn : ∀ c tb, Neutral ((fn c tb).events.map Event.msg)) (prog : List Int) (tb : Nat) :
    Neutral ((progressionLoop T fn first prog tb).events.map Event.msg) := by
  induction prog generalizing tb with
  | nil => exact neutral_nil
  | cons k ks ih =>
    unfold progressionLoop
    cases hn : progressionChordName T k with
    | none => exact neutral_nil
    | some name =>
      simp only []
      split
      · exact neutral_nil
      · cases hc : T.newChordFromAbbrev name with
        | none => exact ih tb
        | some c =>
          simp only []
          cases hr : fn c tb with
          | ok tb1 evs =>
            simp only [Res.andThen, events_prepend, List.map_append]
            have h1 := hfn c tb
            rw [hr] at h1
            exact neutral_append _ _ h1 (ih tb1)
          | panic evs =>
            have h1 := hfn c tb
            rw [hr] at h1
            exact h1

theorem arpsLoop_neutral (T : Theory) (prog : List Int)
    (fns : List (List Int → Nat → Res Nat))
    (hfns : ∀ fn ∈ fns, ∀ c tb, Neutral ((fn c tb).events.map Event.msg)) (i tb : Nat) :
    Neutral ((arpsLoop T prog fns i tb).events.map Event.msg) := by
  induction fns generalizing i tb with
  | nil => exact neutral_nil
  | cons fn fns ih =>
    unfold arpsLoop
    have h1 := progressionLoop_neutral T fn (i == 0) (hfns fn (List.mem_cons_self _ _)) prog tb
    cases hr : progressionLoop T fn (i == 0) prog tb with
    | ok tb1 evs =>
      rw [hr] at h1
      simp only [Res.andThen, events_prepend, List.map_append]
      exact neutral_append _ _ h1 (ih (fun g hg => hfns g (List.mem_cons_of_mem _ hg)) (i + 1) tb1)
    | panic evs =>
      rw [hr] at h1
      exact h1

theorem arps_neutral (ppq : Nat) :
    ∀ fn ∈ arps ppq, ∀ c tb, Neutral ((fn c tb).events.map Event.msg) := by
  intro fn hfn c tb
  simp only [arps, List.mem_cons, List.mem_singleton, List.not_mem_nil, or_false] at hfn
  rcases hfn with h | h | h | h <;> subst h
  · rw [repeatedChords_msgs]; exact neutral_flatMap _ _ (fun _ => neutral_repeatMsgs _)
  · rw [repeatedChords_msgs]; exact neutral_flatMap _ _ (fun _ => neutral_repeatMsgs _)
  · rw [downUp_msgs]; exact neutral_flatMap _ _ (fun _ => neutral_repeatMsgs _)
  · rw [downUp_msgs]; exact neutral_flatMap _ _ (fun _ => neutral_repeatMsgs _)

/-! ## The walk with skipped degrees, raised keys and slot names -/

theorem noteOnLoop_events_zero (bump : Int) (ks : List Int) (i : Nat) :
    (noteOnLoop bump ks i 0).2 = ks.map (fun k => (⟨0, Msg.noteOn 1 (k + bump) 99⟩ : Event)) := by
  induction ks generalizing i with
  | nil => rfl
  | cons k ks ih => simp [noteOnLoop, ih]

theorem noteOffLoop_events_zero (bump : Int) (hold : Nat) (ks : List Int) (i : Nat) :
    (noteOffLoop bump hold ks (i + 1) 0).2
      = ks.map (fun k => (⟨0, Msg.noteOff 1 (k + bump)⟩ : Event)) := by
  induction ks generalizing i with
  | nil => rfl
  | cons k ks ih => simp [noteOffLoop, ih]

theorem chordBlock_cons (ppq : Nat) (k : Int) (ks : List Int) :
    chordBlock ppq (k :: ks)
      = (k :: ks).map (fun x => (⟨0, Msg.noteOn 1 (x + 24) 99⟩ : Event)) ++
          ⟨(ppq * 2) % 2 ^ 32, Msg.noteOff 1 (k + 24)⟩ ::
            ks.map (fun x => (⟨0, Msg.noteOff 1 (x + 24)⟩ : Event)) := by
  simp only [chordBlock, noteOnLoop_events_zero]
  simp [noteOffLoop, noteOffLoop_events_zero, octaveBump]

theorem cadenceOnLoop_msgs (ppq : Nat) (ks : List Int) (i tb : Nat) :
    (cadenceOnLoop ppq ks i tb).2.map Event.msg = ks.map (fun k => Msg.noteOn 1 (k + 24) 99) := by
  induction ks generalizing i tb with
  | nil => rfl
  | cons k ks ih => simp [cadenceOnLoop, ih]

theorem cadenceOnLoop_ticks (ppq : Nat) (ks : List Int) (i tb : Nat) :
    totalTicks (cadenceOnLoop ppq ks i tb).2 = 0 := by
  induction ks generalizing i tb with
  | nil => rfl
  | cons k ks ih => simp [cadenceOnLoop, ih]

theorem chordBlock_msgs (ppq : Nat) (c : List Int) :
    (chordBlock ppq c).map Event.msg = repeatMsgs (c.map (fun k => k + 24)) := by
  simp [chordBlock, noteOnLoop_msgs, noteOffLoop_msgs, repeatMsgs, octaveBump,
    Function.comp_def]

theorem cadenceBlock_msgs (ppq : Nat) (c : List Int) :
    (cadenceBlock ppq c).map Event.msg = repeatMsgs (c.map (fun k => k + 24)) := by
  simp [cadenceBlock, cadenceOnLoop_msgs, noteOffLoop_msgs, repeatMsgs, Function.comp_def]

theorem chordBlock_ticks (ppq : Nat) (c : List Int) :
    totalTicks (chordBlock ppq c) = if c.isEmpty then 0 else (ppq * 2) % 2 ^ 32 := by
  cases c with
  | nil => rfl
  | cons k ks =>
    have a := noteOnLoop_first octaveBump k ks 0
    have b := noteOffLoop_first octaveBump ((ppq * 2) % 2 ^ 32) k ks 0
    rw [chordBlock, totalTicks_append, a.2, b.2]
    simp

theorem cadenceBlock_ticks (ppq : Nat) (c : List Int) :
    totalTicks (cadenceBlock ppq c) = if c.isEmpty then 0 else (ppq * 2) % 2 ^ 32 := by
  cases c with
  | nil => rfl
  | cons k ks =>
    have b := noteOffLoop_first 24 ((ppq * 2) % 2 ^ 32) k ks (cadenceOnLoop ppq (k :: ks) 0 0).1
    rw [cadenceBlock, totalTicks_append, cadenceOnLoop_ticks, b.2]
    simp

theorem degreeChord_of_outcome (T : Theory) (keys : List Int) (i q : Nat)
    (o : Option (List Int)) (h : degreeOutcome T keys i q = some o) :
    degreeChord T keys i q = o := by
  unfold degreeOutcome at h
  unfold degreeChord
  split at h
  · rename_i hi
    have hnone : T.richScaleChords[i]? = none := List.getElem?_eq_none (by omega)
    rw [hnone]
    simp at h
    exact h
  · cases hrow : T.richScaleChords[i]? with
    | none => simp [hrow] at h
    | some row =>
      simp only [hrow] at h ⊢
      split at h
      · rename_i hq
        have hname : scaleChordName T keys row i q = none := by
          unfold scaleChordName
          have hrq : row[q]? = none := List.getElem?_eq_none (by omega)
          cases hk : keys[i]? with
          | none => rfl
          | some key =>
            simp only []
            cases hn : index? T.notes (Int.tmod key 12) with
            | none => rfl
            | some note => simp [hrq]
        rw [hname]
        simp at h
        exact h
      · cases hname : scaleChordName T keys row i q with
        | none => simp [hname] at h
        | some name =>
          simp only [hname, Option.some.injEq] at h ⊢
          exact h

theorem walkLoop_skip (ppq : Nat) (T : Theory) (keys : List Int) (q : Nat) (r : String)
    (rs : List String) (i : Nat) (fc : Option (List Int)) (tb : Nat)
    (h : degreeOutcome T keys (i + 1) q = some none) :
    walkLoop ppq T keys q (r :: rs) (i + 1) fc tb
      = walkLoop ppq T keys q rs (i + 2) fc tb := by
  unfold degreeOutcome at h
  split at h
  · rename_i hi
    simp only [walkLoop, hi, if_true]
  · rename_i hi
    cases hrow : T.richScaleChords[i + 1]? with
    | none => simp [hrow] at h
    | some row =>
      simp only [hrow] at h
      split at h
      · rename_i hq
        simp only [walkLoop, hi, if_false, hrow, hq, if_true]
      · rename_i hq
        cases hname : scaleChordName T keys row (i + 1) q with
        | none => simp [hname] at h
        | some name =>
          simp only [hname, Option.some.injEq] at h
          simp only [walkLoop, hi, hq, if_false, hrow, hname, h]
          simp

theorem walkLoop_tail_skipping (ppq : Nat) (T : Theory) (keys : List Int) (q : Nat)
    (rs : List String) (i : Nat) (fc : Option (List Int))
    (hres : ∀ j, i + 1 ≤ j → j < i + 1 + rs.length →
      (degreeOutcome T keys j q).isSome = true) :
    walkLoop ppq T keys q rs (i + 1) fc 0
      = Res.ok (fc, 0) (walkBlocks ppq T keys q (i + 1) rs.length) := by
  induction rs generalizing i with
  | nil => rfl
  | cons r rs ih =>
    obtain ⟨o, ho⟩ := Option.isSome_iff_exists.mp (hres (i + 1) (Nat.le_refl _) (by simp))
    have hd := degreeChord_of_outcome T keys (i + 1) q o ho
    have hrest := ih (i + 1) (fun j h1 h2 => hres j (by omega) (by simp; omega))
    cases o with
    | none =>
      rw [walkLoop_skip ppq T keys q r rs i fc 0 ho, hrest]
      simp [walkBlocks, List.range'_succ, hd, chordBlock, noteOnLoop, noteOffLoop]
    | some c =>
      rw [walkLoop_step ppq T keys q r rs (i + 1) fc c hd]
      simp only [Nat.add_eq_zero, one_ne_zero, and_false, if_false] at hrest ⊢
      rw [hrest]
      simp [Res.prepend, walkBlocks, List.range'_succ, hd]

theorem pass_events (ppq : Nat) (T : Theory) (keys : List Int) (q : Nat)
    (r : String) (rs : List String) (hr : T.romanNumerals = r :: rs)
    (fc : Option (List Int)) (c0 : List Int) (h0 : degreeChord T keys 0 q = some c0)
    (hok : ∀ j, j < T.romanNumerals.length → (degreeOutcome T keys j q).isSome = true) :
    qualityLoop ppq T keys 1 q fc 0
      = Res.ok (some c0, 0)
          (walkBlocks ppq T keys q 0 T.romanNumerals.length ++ cadenceBlock ppq c0) := by
  have htail := walkLoop_tail_skipping ppq T keys q rs 0 (some c0)
    (fun j h1 h2 => hok j (by rw [hr]; simp; omega))
  simp only [Nat.zero_add] at htail
  simp only [qualityLoop, hr, walkLoop_step ppq T keys q r rs 0 fc c0 h0, if_true, Nat.zero_add,
    htail, Res.andThen, Res.prepend, cadence_some]
  simp [walkBlocks, List.range'_succ, h0]

theorem walkBlocks_ticks (ppq : Nat) (T : Theory) (keys : List Int) (q i n : Nat) :
    totalTicks (walkBlocks ppq T keys q i n)
      = (List.range' i n).countP (fun j => !((degreeChord T keys j q).getD []).isEmpty)
          * ((ppq * 2) % 2 ^ 32) := by
  induction n generalizing i with
  | zero => simp [walkBlocks]
  | succ n ih =>
    have h := ih (i + 1)
    simp only [walkBlocks] at h ⊢
    rw [List.range'_succ, List.flatMap_cons, totalTicks_append, h, chordBlock_ticks,
      List.countP_cons]
    cases hc : ((degreeChord T keys i q).getD []).isEmpty <;> simp [Nat.add_mul]
    omega

theorem raise_one (r o : Nat) (hr : r < 12) (ho : o < 12) (bump : Int) :
    (if (((r + o) % 12 : Nat) : Int) + bump < (r : Int) + bump
      then (((r + o) % 12 : Nat) : Int) + bump + 12 else (((r + o) % 12 : Nat) : Int) + bump)
      = (r : Int) + (o : Int) + bump := by
  split <;> omega

theorem pairwise_raised (r : Nat) (bump : Int) (offsets : List Nat)
    (h : offsets.Pairwise (fun a b => a < b)) :
    (offsets.map (fun (o : Nat) => (r : Int) + (o : Int) + bump)).Pairwise (fun a b => a < b) := by
  rw [List.pairwise_map]
  exact h.imp (fun hab => by omega)

theorem chordTypeOf_parity (k : Int) : chordTypeOf k = if k % 2 = 0 then 1 else 0 := by
  unfold chordTypeOf
  have h : Int.tmod k 2 = 0 ↔ k % 2 = 0 := by
    rw [← Int.dvd_iff_tmod_eq_zero]
    omega
  by_cases hk : k % 2 = 0
  · rw [if_pos (h.mpr hk), if_pos hk]
  · rw [if_neg (fun x => hk (h.mp x)), if_neg hk]

theorem progressionChordName_parity (T : Theory) (k : Int) :
    progressionChordName T k = chordNameByParity T k := by
  unfold progressionChordName chordNameByParity
  rw [chordTypeOf_parity]
  cases index? T.scaleKeys k with
  | none => rfl
  | some key =>
    simp only [Option.some_bind]
    cases index? T.notes (Int.tmod key 12) with
    | none => rfl
    | some note =>
      simp only [Option.some_bind]
      cases index? T.richScaleChords k with
      | none => rfl
      | some row =>
        simp only [Option.some_bind]
        cases index? row (if k % 2 = 0 then 1 else 0) <;> rfl

theorem progressionLoop_slot (T : Theory) (fn : List Int → Nat → Res Nat) (first : Bool)
    (k : Int) (ks : List Int) (tb : Nat) (name : String)
    (hname : progressionChordName T k = some name)
    (hroman : (index? T.romanNumerals k).isSome = true) :
    progressionLoop T fn first (k :: ks) tb
      = match T.newChordFromAbbrev name with
        | none => progressionLoop T fn first ks tb
        | some c => (fn c tb).andThen (fun tb1 => progressionLoop T fn first ks tb1) := by
  have hr : (index? T.romanNumerals k).isNone = false := by
    cases hx : index? T.romanNumerals k <;> simp_all
  simp [progressionLoop, hname, hr]

/-! ## C1: note-ons and note-offs of the improvisation -/

/-- C1, as amended. For distinct voice pitches and four bars of 16-step
patterns, `euclideanImprov` runs to its end and, for every (channel, pitch)
pair: no note-off of the pair precedes a note-on of the pair, and every
note-off closes the one or more note-ons of the pair emitted since the
previous note-off; and the pair is still sounding at the end of the stream
only when its voice is on in the last step (step 15) of the fourth bar, so
that otherwise every note-on of the pair is followed by a note-off of the
pair before the end of the stream. -/
theorem euclideanImprov_releases_matched (ppq : Nat) (key key2 : Int)
    (rhythm : Nat → List Bool × List Bool) (hne : key ≠ key2)
    (hlen : ∀ i, i < 4 → (rhythm i).1.length = 16 ∧ (rhythm i).2.length = 16) :
    (euclideanImprov ppq key key2 rhythm).isOk = true ∧
      ∀ ch pitch : Int,
        releasesMatched ch pitch (euclideanImprov ppq key key2 rhythm).events = true ∧
        (soundingAfter ch pitch false (euclideanImprov ppq key key2 rhythm).events = true →
          ch = 1 ∧ ((pitch = key ∧ (rhythm 3).1[15]? = some true) ∨
            (pitch = key2 ∧ (rhythm 3).2[15]? = some true))) := by
  have hb : ∀ bar ∈ [rhythm 0, rhythm 1, rhythm 2, rhythm 3], bar.1.length ≤ bar.2.length := by
    intro bar hbar
    simp only [List.mem_cons, List.mem_singleton, List.not_mem_nil, or_false] at hbar
    rcases hbar with h | h | h | h <;> subst h
    · rw [(hlen 0 (by decide)).1, (hlen 0 (by decide)).2]
    · rw [(hlen 1 (by decide)).1, (hlen 1 (by decide)).2]
    · rw [(hlen 2 (by decide)).1, (hlen 2 (by decide)).2]
    · rw [(hlen 3 (by decide)).1, (hlen 3 (by decide)).2]
  have h3 := hlen 3 (by decide)
  constructor
  · obtain ⟨q, evs, he, _⟩ := improvBars_sounding ppq key key2 0 0 hne _ Press.init hb
    simp [euclideanImprov, he, Res.isOk]
  · intro ch pitch
    obtain ⟨q, evs, he, hm, hs, hfin⟩ :=
      improvBars_sounding ppq key key2 ch pitch hne _ Press.init hb
    have h0 : held key key2 ch pitch Press.init = false := by simp [held, Press.init]
    rw [h0] at hm hs
    have hq := hfin [rhythm 0, rhythm 1, rhythm 2] (rhythm 3) rfl
      (by intro hnil; rw [hnil] at h3; simp at h3)
    rw [h3.1] at hq
    have hev : (euclideanImprov ppq key key2 rhythm).events = evs := by
      simp [euclideanImprov, he, Res.events]
    rw [hev]
    refine ⟨hm, ?_⟩
    intro hsound
    rw [hs] at hsound
    have hi1 : 15 < (rhythm 3).1.length := by rw [h3.1]; decide
    have hi2 : 15 < (rhythm 3).2.length := by rw [h3.2]; decide
    rw [List.getElem?_eq_getElem hi1, List.getElem?_eq_getElem hi2] at hq ⊢
    simp only [Option.getD_some] at hq
    simp only [held, Bool.and_eq_true, Bool.or_eq_true, decide_eq_true_eq] at hsound
    rw [hq.1, hq.2] at hsound
    refine ⟨hsound.1, ?_⟩
    rcases hsound.2 with h | h
    · exact Or.inl ⟨h.1, by rw [h.2]⟩
    · exact Or.inr ⟨h.1, by rw [h.2]⟩

/-- C1 as stated fails. With voice A on in steps 0 and 1 of the first bar the
stream holds two note-ons of (1, 48) with no note-off between them; when both
voices have the same pitch and are released in the same step, two note-offs
of that pair follow each other; and with voice A on in step 15 of the fourth
bar the stream ends on a note-on of (1, 48) that no note-off follows. -/
theorem euclideanImprov_not_strictly_matched :
    strictlyMatched 1 48
      (euclideanImprov 480 48 55
        (fun i => if i = 0 then (pattern [0, 1], pattern []) else (pattern [], pattern []))).events
      = false ∧
    releasesMatched 1 48
      (euclideanImprov 480 48 48
        (fun i => if i = 0 then (pattern [0], pattern [0]) else (pattern [], pattern []))).events
      = false ∧
    (euclideanImprov 480 48 55
        (fun i => if i = 3 then (pattern [15], pattern []) else (pattern [], pattern []))).events
      = [⟨1800, Msg.noteOn 1 48 99⟩] ∧
    strictlyMatched 1 48
      (euclideanImprov 480 48 55
        (fun i => if i = 3 then (pattern [15], pattern []) else (pattern [], pattern []))).events
      = false := by
  refine ⟨by decide, by decide, by decide, by decide⟩

/-- C1, as amended, at the pitches 48 and 55 with voice A on in steps 0 and 1
of the first bar: the releases are matched and no pair is left sounding. -/
theorem euclideanImprov_releases_matched_witness :
    (48 : Int) ≠ 55 ∧
    releasesMatched 1 48
      (euclideanImprov 480 48 55
        (fun i => if i = 0 then (pattern [0, 1], pattern []) else (pattern [], pattern []))).events
      = true ∧
    soundingAfter 1 48 false
      (euclideanImprov 480 48 55
        (fun i => if i = 0 then (pattern [0, 1], pattern []) else (pattern [], pattern []))).events
      = false :=
  ⟨by decide, ((euclideanImprov_releases_matched 480 48 55
      (fun i => if i = 0 then (pattern [0, 1], pattern []) else (pattern [], pattern []))
      (by decide) (by
        intro i _
        by_cases h : i = 0 <;> simp [h, pattern])).2 1 48).1, by decide⟩

/-! ## C2: the first texture of `playProgression` -/

/-- C2 fails on the code. With `ppq = 480` the repeat count of line 256 for
the first texture, `repeatedChords(ppq * 2)`, is `(480 / 960) * 2 = 0`: for
every chord the texture runs zero repeats and emits no event, where the claim
expects one note-on and one note-off per chord tone. -/
theorem repeatedChords_double_rate_emits_nothing (keys : List Int) (tb : Nat) :
    repeatedChordsRepeats 480 (480 * 2 % 2 ^ 32) = 0 ∧
    repeatedChords 480 (480 * 2 % 2 ^ 32) keys tb = Res.ok 0 [] ∧
    (arps 480).head?.map (fun fn => fn [0, 4, 7] 0) = some (Res.ok 0 []) := by
  have h : repeatedChordsRepeats 480 960 = 0 := by decide
  refine ⟨by decide, ?_, ?_⟩
  · simp [repeatedChords, h, repeatedChordsLoop]
  · simp [arps, repeatedChords, h, repeatedChordsLoop]

/-! ## C3: the ticks spanned by one call of a texture -/

/-- C3. For a non-empty chord and a rate above zero, one call of
`repeatedChords(rate)` runs to its end and the deltas of its events sum to
`repeats * rate`, where `repeats` is the count of line 256,
`(ppq / rate) * 2` as a `uint32`; one call of `downUp(rate)` does the same
with the count of line 283, `(ppq / rate) * 4`. For `ppq < 2 ^ 30` the
`uint32` products do not wrap. -/
theorem texture_ticks_eq_repeats_mul_rate (ppq rate : Nat) (keys : List Int) (tb : Nat)
    (hkeys : keys ≠ []) (hrate : 0 < rate) :
    (repeatedChords ppq rate keys tb).isOk = true ∧
    totalTicks (repeatedChords ppq rate keys tb).events
      = ((ppq / rate) * 2 % 2 ^ 32) * rate ∧
    (downUp ppq rate keys tb).isOk = true ∧
    totalTicks (downUp ppq rate keys tb).events = ((ppq / rate) * 4 % 2 ^ 32) * rate ∧
    (ppq < 2 ^ 30 →
      totalTicks (repeatedChords ppq rate keys tb).events = (ppq / rate) * 2 * rate ∧
      totalTicks (downUp ppq rate keys tb).events = (ppq / rate) * 4 * rate) := by
  have a := repeatedChords_ticks ppq rate keys tb hkeys hrate
  have b := downUp_ticks ppq rate keys tb hkeys hrate
  refine ⟨a.1, a.2, b.1, b.2, ?_⟩
  intro h
  rw [a.2, b.2, (repeats_no_wrap ppq rate h).1, (repeats_no_wrap ppq rate h).2]
  exact ⟨rfl, rfl⟩

/-- C3 at the chord C-E-G with `ppq = 480` and rate 240. -/
theorem texture_ticks_eq_repeats_mul_rate_witness :
    ([0, 4, 7] : List Int) ≠ [] ∧ 0 < 240 ∧
    totalTicks (repeatedChords 480 240 [0, 4, 7] 0).events = ((480 / 240) * 2 % 2 ^ 32) * 240 ∧
    totalTicks (downUp 480 240 [0, 4, 7] 0).events = ((480 / 240) * 4 % 2 ^ 32) * 240 :=
  ⟨by decide, by decide,
    (texture_ticks_eq_repeats_mul_rate 480 240 [0, 4, 7] 0 (by decide) (by decide)).2.1,
    (texture_ticks_eq_repeats_mul_rate 480 240 [0, 4, 7] 0 (by decide) (by decide)).2.2.2.1⟩

/-! ## C4: the ticks of one bar of the improvisation -/

/-- C4 as stated fails. A bar in which both voices are silent, entered with
no voice pressed, emits no event, so its deltas sum to 0 and not to
`16 * (480 / 4) = 1920`; the bar ends with the 1920 ticks in the accumulator. -/
theorem playBar_silent_emits_no_ticks :
    playBar 480 48 55 (pattern []) (pattern []) Press.init = Res.ok (Press.init, 1920) [] ∧
    totalTicks (playBar 480 48 55 (pattern []) (pattern []) Press.init).events
      ≠ 16 * (480 / 4) := by
  constructor <;> decide

/-- C4, as amended. For every pair of 16-step patterns, every press state on
entry and every `ppq < 2 ^ 30`, the bar runs to its end and the sum of the
deltas of the events it emits plus the value left in the accumulator at the
end of the bar equals `16 * (ppq / 4)`. -/
theorem playBar_ticks (ppq : Nat) (key key2 : Int) (beatsA beatsB : List Bool) (p : Press)
    (hA : beatsA.length = 16) (hB : beatsB.length = 16) (hppq : ppq < 2 ^ 30) :
    ∃ q d evs, playBar ppq key key2 beatsA beatsB p = Res.ok (q, d) evs ∧
      totalTicks evs + d = 16 * (ppq / 4) := by
  have h := barLoop_ticks ppq key key2 beatsB beatsA 0 p 0 (by omega) (by rw [hA]; omega)
  simpa [playBar, hA] using h

/-- C4, as amended, at a bar with voice A on in steps 3 and 4 and voice B on
in step 9. -/
theorem playBar_ticks_witness :
    (pattern [3, 4]).length = 16 ∧ (pattern [9]).length = 16 ∧ 480 < 2 ^ 30 ∧
    ∃ q d evs, playBar 480 48 55 (pattern [3, 4]) (pattern [9]) Press.init = Res.ok (q, d) evs ∧
      totalTicks evs + d = 16 * (480 / 4) :=
  ⟨by decide, by decide, by decide,
    playBar_ticks 480 48 55 (pattern [3, 4]) (pattern [9]) Press.init
      (by decide) (by decide) (by decide)⟩

/-! ## C5: a silent bar followed by a sounding bar -/

/-- C5 fails on the code. The first bar is silent for both voices and the
second bar has voice A on in its step 0: the first event after the silent bar
has delta 0, not at least `16 * (480 / 4) = 1920`. The accumulator is declared
inside the loop over the bars (line 111), so the 1920 ticks gathered by the
silent bar are dropped at the bar line. -/
theorem euclideanImprov_silent_bar_dropped :
    euclideanImprov 480 48 55
        (fun i => if i = 1 then (pattern [0], pattern []) else (pattern [], pattern []))
      = Res.ok ⟨false, false, false, false⟩
          [⟨0, Msg.noteOn 1 48 99⟩, ⟨120, Msg.noteOff 1 48⟩] := by
  decide

/-! ## C6: progression slots whose chord does not resolve -/

/-- C6. For every progression, tables and chord resolver, `playProgression`
has the same outcome (events and absence of failure) as on the progression
with the slots whose chord fails to resolve removed. When every slot's table
entries can be read (and `ppq` is even, positive and below `2 ^ 31`, so that no
rate is zero), the run reaches its end and its stream is, for each of the four
textures in order, the concatenation of that texture's events over the
resolved slots in order. -/
theorem playProgression_skips_unresolved (ppq : Nat) (T : Theory) (progression : List Int) :
    playProgression ppq T progression
      = playProgression ppq T (progression.filter (fun k => !failsToResolve T k)) ∧
    (0 < ppq → ppq % 2 = 0 → ppq < 2 ^ 31 →
      (∀ k ∈ progression, (progressionChordName T k).isSome = true ∧
        (index? T.romanNumerals k).isSome = true) →
      (playProgression ppq T progression).isOk = true ∧
      (playProgression ppq T progression).events
        = (arps ppq).flatMap (fun fn =>
            (progression.filterMap (slotChord T)).flatMap (fun c => (fn c 0).events))) := by
  constructor
  · exact arpsLoop_filter T progression (arps ppq) 0 0
  · intro hpos heven hlt hT
    obtain ⟨tb1, h⟩ := arpsLoop_events T progression hT (arps ppq)
      (arps_steady ppq hpos heven hlt) 0 0
    simp [playProgression, h, Res.isOk, Res.events]

/-- C6 at C major with the progression I-IV-V-I, whose V chord does not
resolve. -/
theorem playProgression_skips_unresolved_witness :
    (0 < 480 ∧ 480 % 2 = 0 ∧ 480 < 2 ^ 31 ∧
      ∀ k ∈ ([0, 3, 4, 0] : List Int), (progressionChordName cMajor k).isSome = true ∧
        (index? cMajor.romanNumerals k).isSome = true) ∧
    failsToResolve cMajor 4 = true ∧
    (playProgression 480 cMajor [0, 3, 4, 0]).isOk = true ∧
    (playProgression 480 cMajor [0, 3, 4, 0]).events
      = (arps 480).flatMap (fun fn =>
          (([0, 3, 4, 0] : List Int).filterMap (slotChord cMajor)).flatMap
            (fun c => (fn c 0).events)) :=
  ⟨⟨by decide, by decide, by decide, by decide⟩, by decide,
    (playProgression_skips_unresolved 480 cMajor [0, 3, 4, 0]).2
      (by decide) (by decide) (by decide) (by decide)⟩

/-! ## C7: the bounds guard of the scale-chord walk -/

/-- C7 fails on the code. The guard of line 169 tests `>` where the bounds
need `>=`, and reads `scaleChords[i]` while testing it. With a second degree
that offers one quality where degree 0 offers two, the second pass reads
`scaleChords[1][1]` out of range; with three roman numerals over a chord table
of two degrees, the guard itself reads `scaleChords[2]` out of range. In both
runs the program stops on the failure instead of skipping the chord. -/
theorem playScaleChords_index_out_of_range :
    (playScaleChords 480 fewerQualities).isOk = false ∧
    (playScaleChords 480 moreNumerals).isOk = false := by
  constructor <;> decide

/-! ## C8: an unresolved tonic chord in the scale-chord walk -/

/-- C8 fails on the code. When the chord of the first degree does not resolve,
`firstChord` is `nil` at the end of the pass and the cadence reads
`firstChord.Keys` (line 205): the run stops there, after the events of the one
resolved chord (D minor) of the first pass; the cadence and the second pass
are never reached. -/
theorem playScaleChords_nil_tonic_fails :
    playScaleChords 480 tonicUnresolved
      = Res.panic [⟨0, Msg.noteOn 1 26 99⟩, ⟨0, Msg.noteOn 1 29 99⟩, ⟨0, Msg.noteOn 1 33 99⟩,
          ⟨960, Msg.noteOff 1 26⟩, ⟨0, Msg.noteOff 1 29⟩, ⟨0, Msg.noteOff 1 33⟩] := by
  decide

/-! ## C9: the cadence replays of the scale-chord walk -/

/-- C9. When the scale has keys and roman numerals, degree 0 of the chord
table offers `Q` qualities and the chord of every degree resolves at every
quality below `Q`, `playScaleChords` runs to its end and its stream is the
concatenation, for the qualities `0, ..., Q - 1` in order, of the walk over all
degrees followed by one replay of the chord of degree 0 at that quality: `Q`
cadence replays, each right after the last degree of its pass. -/
theorem playScaleChords_cadences (ppq : Nat) (T : Theory) (row0 : List String)
    (hkeys : T.scaleKeys ≠ []) (hnum : T.romanNumerals ≠ [])
    (hrow : T.richScaleChords[0]? = some row0)
    (hres : ∀ i, i < T.romanNumerals.length → ∀ q, q < row0.length →
      (degreeChord T (walkKeys T) i q).isSome = true) :
    (playScaleChords ppq T).isOk = true ∧
    (playScaleChords ppq T).events
      = (List.range row0.length).flatMap
          (fun q => walkBlocks ppq T (walkKeys T) q 0 T.romanNumerals.length
            ++ cadenceBlock ppq ((degreeChord T (walkKeys T) 0 q).getD [])) := by
  obtain ⟨k0, ks, hk⟩ := List.exists_cons_of_ne_nil hkeys
  obtain ⟨r, rs, hr⟩ := List.exists_cons_of_ne_nil hnum
  have hw : raiseKeys (k0 + octaveBump) T.scaleKeys = walkKeys T := by
    simp [walkKeys, hk]
  obtain ⟨s, hs⟩ := qualityLoop_events ppq T (walkKeys T) r rs hr row0.length 0 none
    (fun j hj x hx => hres j hj x (by omega))
  have hp : playScaleChords ppq T = Res.ok (s, 0) ((List.range' 0 row0.length).flatMap
      (passEvents ppq T (walkKeys T) T.romanNumerals.length)) := by
    unfold playScaleChords
    rw [hrow]
    simp only [hk, List.getElem?_cons_zero]
    rw [← hk, hw, hs]
  rw [hp, List.range_eq_range']
  exact ⟨rfl, rfl⟩

/-- C9 at the 7-degree C major scale with 2 qualities per degree: 2 passes,
each closed by one replay of the tonic chord. -/
theorem playScaleChords_cadences_witness :
    cMajorAll.romanNumerals.length = 7 ∧
    (playScaleChords 480 cMajorAll).isOk = true ∧
    (playScaleChords 480 cMajorAll).events
      = (List.range 2).flatMap
          (fun q => walkBlocks 480 cMajorAll (walkKeys cMajorAll) q 0 7
            ++ cadenceBlock 480 ((degreeChord cMajorAll (walkKeys cMajorAll) 0 q).getD [])) :=
  ⟨by decide,
    playScaleChords_cadences 480 cMajorAll ["maj", "maj7"]
      (by decide) (by decide) (by decide) (by decide)⟩

/-! ## C10: the ticks spanned by the four textures -/

/-- C10 as stated fails. At `ppq = 480` the four textures span 0, 960, 1920
and 1920 ticks on the chord C-E-G, which are not all equal; and at the odd
resolution `ppq = 5` the two down-up textures span 20 and 16 ticks. -/
theorem textures_span_differ :
    textureTicks 480 [0, 4, 7] = [0, 960, 1920, 1920] ∧
    ¬ (∀ a ∈ textureTicks 480 [0, 4, 7], ∀ b ∈ textureTicks 480 [0, 4, 7], a = b) ∧
    totalTicks (downUp 5 5 [0, 4, 7] 0).events
      ≠ totalTicks (downUp 5 (5 / 2) [0, 4, 7] 0).events := by
  refine ⟨by decide, by decide, by decide⟩

/-- C10, as amended. For every non-empty chord and every even `ppq > 0`, the
two down-up textures `downUp(ppq)` and `downUp(ppq / 2)` each span `4 * ppq`
ticks for one progression slot and `repeatedChords(ppq)` spans `2 * ppq`
ticks. Nothing is stated about `repeatedChords(ppq * 2)`. -/
theorem textures_span (ppq : Nat) (keys : List Int) (hkeys : keys ≠ [])
    (hpos : 0 < ppq) (heven : ppq % 2 = 0) :
    ∃ x, textureTicks ppq keys = [x, 2 * ppq, 4 * ppq, 4 * ppq] := by
  have h2 : 0 < ppq / 2 := by omega
  have hd : ppq / (ppq / 2) = 2 := by
    apply Nat.div_eq_of_lt_le <;> omega
  have a := repeatedChords_ticks ppq ppq keys 0 hkeys hpos
  have b := downUp_ticks ppq ppq keys 0 hkeys hpos
  have c := downUp_ticks ppq (ppq / 2) keys 0 hkeys h2
  refine ⟨totalTicks (repeatedChords ppq (ppq * 2 % 2 ^ 32) keys 0).events, ?_⟩
  simp only [textureTicks, arps, List.map_cons, List.map_nil]
  rw [a.2, b.2, c.2]
  simp only [repeatedChordsRepeats, downUpRepeats, hd, Nat.div_self hpos]
  norm_num
  omega

/-- C10, as amended, at `ppq = 480` and the chord C-E-G. -/
theorem textures_span_witness :
    ([0, 4, 7] : List Int) ≠ [] ∧ 0 < 480 ∧ 480 % 2 = 0 ∧
    ∃ x, textureTicks 480 [0, 4, 7] = [x, 2 * 480, 4 * 480, 4 * 480] :=
  ⟨by decide, by decide, by decide,
    textures_span 480 [0, 4, 7] (by decide) (by decide) (by decide)⟩

/-! ## C11: note-ons and note-offs of the textures -/

/-- C11. For every chord and rate, the messages of `repeatedChords(rate)` are,
repeat after repeat, the note-ons of the pitches `k + 24` followed by the
note-offs of the same pitches in the same order, and the messages of
`downUp(rate)` are, for each repeat `n`, the note-ons of the pitches of that
repeat followed by the note-offs of the same pitches in the same order.
Hence, for every progression, tables and resolver, in the stream of
`playProgression` every note-on of a (channel, pitch) pair is matched by
exactly one later note-off of the pair and no note-off precedes its note-on. -/
theorem textures_note_offs_match (ppq rate : Nat) (keys : List Int) (tb : Nat) (T : Theory)
    (progression : List Int) :
    (repeatedChords ppq rate keys tb).events.map Event.msg
      = (List.range (repeatedChordsRepeats ppq rate)).flatMap
          (fun _ => repeatMsgs (keys.map (fun k => k + 24))) ∧
    (downUp ppq rate keys tb).events.map Event.msg
      = (List.range (downUpRepeats ppq rate)).flatMap
          (fun n => repeatMsgs (downUpPitches keys n)) ∧
    ∀ ch pitch : Int, balanced ch pitch (playProgression ppq T progression).events = true := by
  refine ⟨repeatedChords_msgs ppq rate keys tb, downUp_msgs ppq rate keys tb, ?_⟩
  intro ch pitch
  have h := arpsLoop_neutral T progression (arps ppq) (arps_neutral ppq) 0 0 ch pitch 0 []
  rw [List.append_nil] at h
  rw [balanced, playProgression, h]
  rfl

/-! ## C12: a bar in which both voices are silent -/

/-- C12 as stated fails. A silent bar entered with voice A pressed emits the
note-off of voice A in its step 0; in the four-bar run with voice A on in step
15 of the first bar and three silent bars, the second bar emits that note-off. -/
theorem silent_bar_emits_release :
    playBar 480 48 55 (pattern []) (pattern []) ⟨true, false, false, false⟩
      = Res.ok (⟨false, false, false, false⟩, 1920) [⟨0, Msg.noteOff 1 48⟩] ∧
    (euclideanImprov 480 48 55
        (fun i => if i = 0 then (pattern [15], pattern []) else (pattern [], pattern []))).events
      = [⟨1800, Msg.noteOn 1 48 99⟩, ⟨0, Msg.noteOff 1 48⟩] := by
  constructor <;> decide

/-- C12, as amended. A bar of 16 steps in which both patterns have no on step
runs to its end and emits no note-on; its only events are the note-offs of the
voices that are pressed on entry to the bar, one for each such voice, voice A's
before voice B's. When no voice is pressed on entry the bar emits no event. -/
theorem silent_bar_events (ppq : Nat) (key key2 : Int) (beatsA beatsB : List Bool) (p : Press)
    (hA : beatsA.length = 16) (hB : beatsB.length = 16)
    (hoffA : ∀ b ∈ beatsA, b = false) (hoffB : ∀ b ∈ beatsB, b = false) :
    ∃ s evs, playBar ppq key key2 beatsA beatsB p = Res.ok s evs ∧
      evs.map Event.msg
        = (if p.isAPressed then [Msg.noteOff 1 key] else []) ++
          (if p.isBPressed then [Msg.noteOff 1 key2] else []) := by
  obtain ⟨s, hs⟩ := playBar_eq_barSteps ppq key key2 beatsA beatsB p (by omega)
  refine ⟨s, _, hs, ?_⟩
  rw [zip_silent beatsA beatsB hA hB hoffA hoffB]
  have hrest := barSteps_silent ppq key key2 15 (stepPress false false p)
    (nextDelta ppq (stepPress false false p) (stepEmit key key2 false false p 0).1) rfl rfl
  simp only [stepsEvents] at hrest
  simp only [List.replicate_succ, barSteps, stepsEvents, List.flatMap_cons] at hrest ⊢
  rw [hrest]
  cases h1 : p.isAPressed <;> cases h2 : p.isBPressed <;>
    simp [stepEmit, stepPress, emitIf, h1, h2]

/-- C12, as amended, at a silent bar entered with both voices pressed. -/
theorem silent_bar_events_witness :
    (pattern []).length = 16 ∧ (∀ b ∈ pattern [], b = false) ∧
    ∃ s evs, playBar 480 48 55 (pattern []) (pattern []) ⟨true, true, false, false⟩
        = Res.ok s evs ∧
      evs.map Event.msg
        = (if (⟨true, true, false, false⟩ : Press).isAPressed then [Msg.noteOff 1 48] else []) ++
          (if (⟨true, true, false, false⟩ : Press).isBPressed then [Msg.noteOff 1 55] else []) :=
  ⟨by decide, by decide,
    silent_bar_events 480 48 55 (pattern []) (pattern []) ⟨true, true, false, false⟩
      (by decide) (by decide) (by decide) (by decide)⟩

/-! ## C13: cumulative time of the events of a bar -/

/-- C13. For 16-step patterns, every press state on entry and `ppq < 2 ^ 30`,
the bar runs to its end and its stream is the concatenation of the events of
its 16 steps, step `i` reading `beatsA[i]` and `beatsB[i]`. For every step
`st`, preceded by the steps `pre` (so that its index is `pre.length`): the
deltas emitted before the step plus the accumulator on entry equal
`pre.length * (ppq / 4)`; every event of the step has that cumulative time,
the sum of the bar's deltas up to and including it; the step emits no event
exactly when neither voice is on in it and neither was pressed before it,
where the flags before step 0 are those on entry to the bar and the flags
before a later step are what the voices read in the previous step. -/
theorem bar_step_times (ppq : Nat) (key key2 : Int) (beatsA beatsB : List Bool) (p : Press)
    (hA : beatsA.length = 16) (hB : beatsB.length = 16) (hppq : ppq < 2 ^ 30) :
    (∃ s, playBar ppq key key2 beatsA beatsB p
      = Res.ok s (stepsEvents (barSteps ppq key key2 (beatsA.zip beatsB) p 0))) ∧
    (barSteps ppq key key2 (beatsA.zip beatsB) p 0).map (fun s => (s.onA, s.onB))
      = beatsA.zip beatsB ∧
    ∀ pre st post, barSteps ppq key key2 (beatsA.zip beatsB) p 0 = pre ++ st :: post →
      totalTicks (stepsEvents pre) + st.delta = pre.length * (ppq / 4) ∧
      (∀ e1 e e2, st.events = e1 ++ e :: e2 →
        totalTicks (stepsEvents pre ++ (e1 ++ [e])) = pre.length * (ppq / 4)) ∧
      (st.events = [] ↔ (st.onA = false ∧ st.onB = false ∧
        st.press.isAPressed = false ∧ st.press.isBPressed = false)) ∧
      (pre = [] → st.press = p) ∧
      (∀ pre1 s0, pre = pre1 ++ [s0] →
        st.press.isAPressed = s0.onA ∧ st.press.isBPressed = s0.onB) := by
  refine ⟨playBar_eq_barSteps ppq key key2 beatsA beatsB p (by omega),
    barSteps_reads ppq key key2 _ p 0, ?_⟩
  intro pre st post h
  have hlen : (beatsA.zip beatsB).length = 16 := by simp [hA, hB]
  have ht := barSteps_ticks ppq key key2 (beatsA.zip beatsB) p 0 (by rw [hlen]; omega)
    pre st post h
  rw [Nat.zero_add] at ht
  have hev := barSteps_events ppq key key2 (beatsA.zip beatsB) p 0 st (by rw [h]; simp)
  refine ⟨ht, ?_, ?_, ?_, ?_⟩
  · intro e1 e e2 he
    rw [totalTicks_append, stamp_prefix_ticks st.delta _ e1 e e2 (by rw [← hev]; exact he)]
    exact ht
  · rw [hev, stamp_eq_nil, stepMsgs_eq_nil]
  · intro hpre
    subst hpre
    exact (barSteps_head ppq key key2 _ p 0 st post h).1
  · intro pre1 s0 hpre
    subst hpre
    exact barSteps_press ppq key key2 _ p 0 pre1 s0 st post (by rw [h]; simp)

/-- C13 at a bar with voice A on in steps 3 and 4 and voice B on in step 9. -/
theorem bar_step_times_witness :
    (pattern [3, 4]).length = 16 ∧ (pattern [9]).length = 16 ∧ 480 < 2 ^ 30 ∧
    (∃ s, playBar 480 48 55 (pattern [3, 4]) (pattern [9]) Press.init
      = Res.ok s (stepsEvents (barSteps 480 48 55 ((pattern [3, 4]).zip (pattern [9]))
          Press.init 0))) ∧
    (barSteps 480 48 55 ((pattern [3, 4]).zip (pattern [9])) Press.init 0).map
        (fun s => (s.onA, s.onB))
      = (pattern [3, 4]).zip (pattern [9]) :=
  ⟨by decide, by decide, by decide,
    (bar_step_times 480 48 55 (pattern [3, 4]) (pattern [9]) Press.init
      (by decide) (by decide) (by decide)).1,
    (bar_step_times 480 48 55 (pattern [3, 4]) (pattern [9]) Press.init
      (by decide) (by decide) (by decide)).2.1⟩

/-! ## C14: the pitches of the down-up texture -/

/-- C14 as stated fails. On the chord C-E-G with `ppq = 480` and rate 480 the
odd repeats of `downUp` sound the pitches 24, 40, 43: the first voice at
`k0 + 24` and the other voices at `k + 36`, not at `k + 24`. -/
theorem downUp_odd_repeat_pitches :
    (downUp 480 480 [0, 4, 7] 0).events.map Event.msg
      = repeatMsgs [12] ++ repeatMsgs [24, 40, 43] ++ repeatMsgs [12] ++ repeatMsgs [24, 40, 43] ∧
    (downUp 480 480 [0, 4, 7] 0).events.map Event.msg
      ≠ (List.range (downUpRepeats 480 480)).flatMap
          (fun n => repeatMsgs (downUpPitchesExpected [0, 4, 7] n)) := by
  constructor <;> decide

/-- C14, as amended. For every chord with keys `k0, k1, ...`, the down-up
texture alternates by the parity of the repeat index: an even repeat sounds
one note, the first voice at `k0 + 24 - 12`; an odd repeat sounds every voice,
the first at `k0 + 24`, where the repeated-chords texture places it, and every
other voice at `ki + 36`, one octave above its placement `ki + 24` in the
repeated-chords texture. -/
theorem downUp_alternates (ppq rate : Nat) (k0 : Int) (ks : List Int) (tb : Nat) :
    (downUp ppq rate (k0 :: ks) tb).events.map Event.msg
      = (List.range (downUpRepeats ppq rate)).flatMap
          (fun n => repeatMsgs
            (if n % 2 = 0 then [k0 + 24 - 12] else (k0 + 24) :: ks.map (fun k => k + 36))) ∧
    (repeatedChords ppq rate (k0 :: ks) tb).events.map Event.msg
      = (List.range (repeatedChordsRepeats ppq rate)).flatMap
          (fun _ => repeatMsgs ((k0 + 24) :: ks.map (fun k => k + 24))) := by
  constructor
  · rw [downUp_msgs]
    rfl
  · rw [repeatedChords_msgs]
    rfl

/-! ## C15: the pitches of the cadence replay -/

/-- C15 as stated fails. On the tonic chord C-E-G the cadence replay sounds
the pitches 24, 28, 31, the pitches at which the walk sounds the chord, and
not those pitches raised by 12. -/
theorem cadence_not_octave_up :
    (cadenceBlock 480 [0, 4, 7]).map Event.msg = repeatMsgs [24, 28, 31] ∧
    (chordBlock 480 [0, 4, 7]).map Event.msg = repeatMsgs [24, 28, 31] ∧
    (cadenceBlock 480 [0, 4, 7]).map Event.msg
      ≠ repeatMsgs (([0, 4, 7] : List Int).map (fun k => k + 24 + 12)) := by
  refine ⟨by decide, by decide, by decide⟩

/-- C15, as amended. In every quality pass of `playScaleChords` whose tonic
chord resolves to `c`, the walk sounds the tonic chord as the block
`chordBlock ppq c` and the cadence replays it as `cadenceBlock ppq c`, and both
blocks carry the same messages: a note-on, then a note-off, for every voice at
pitch `k + 24`. Each pitch of the cadence replay equals the pitch at which the
same voice was sounded during the walk. -/
theorem cadence_same_pitches (ppq : Nat) (T : Theory) (keys : List Int) (q : Nat)
    (r : String) (rs : List String) (fc : Option (List Int)) (c : List Int)
    (h0 : degreeChord T keys 0 q = some c) :
    walkLoop ppq T keys q (r :: rs) 0 fc 0
      = Res.prepend (chordBlock ppq c) (walkLoop ppq T keys q rs 1 (some c) 0) ∧
    cadence ppq (some c) 0 = Res.ok 0 (cadenceBlock ppq c) ∧
    (chordBlock ppq c).map Event.msg = repeatMsgs (c.map (fun k => k + 24)) ∧
    (cadenceBlock ppq c).map Event.msg = repeatMsgs (c.map (fun k => k + 24)) := by
  refine ⟨?_, cadence_some ppq c, chordBlock_msgs ppq c, cadenceBlock_msgs ppq c⟩
  rw [walkLoop_step ppq T keys q r rs 0 fc c h0]
  rfl

/-- C15, as amended, at the tonic chord of C major in the pass of quality 1. -/
theorem cadence_same_pitches_witness :
    degreeChord cMajorAll (walkKeys cMajorAll) 0 1 = some [0, 4, 7] ∧
    (chordBlock 480 [0, 4, 7]).map Event.msg
      = repeatMsgs (([0, 4, 7] : List Int).map (fun k => k + 24)) ∧
    (cadenceBlock 480 [0, 4, 7]).map Event.msg
      = repeatMsgs (([0, 4, 7] : List Int).map (fun k => k + 24)) :=
  ⟨by decide,
    (cadence_same_pitches 480 cMajorAll (walkKeys cMajorAll) 1 "I" [] none [0, 4, 7]
      (by decide)).2.2⟩

/-! ## C16: order and deltas of the events of a step -/

/-- C16. For 16-step patterns and every press state on entry, the stream of a
bar is the concatenation of the events of its steps, and the events of every
step are, in this order, voice A's note-on if A is on, voice B's note-on if B
is on, voice A's note-off if A was pressed and is not on, voice B's note-off
if B was pressed and is not on; the first of them carries the accumulator held
on entry to the step and the others delta 0. The flags before step 0 are those
on entry to the bar, the flags before a later step what the voices read in the
previous step. -/
theorem bar_step_order (ppq : Nat) (key key2 : Int) (beatsA beatsB : List Bool) (p : Press)
    (hA : beatsA.length = 16) (hB : beatsB.length = 16) :
    (∃ s, playBar ppq key key2 beatsA beatsB p
      = Res.ok s (stepsEvents (barSteps ppq key key2 (beatsA.zip beatsB) p 0))) ∧
    (barSteps ppq key key2 (beatsA.zip beatsB) p 0).map (fun s => (s.onA, s.onB))
      = beatsA.zip beatsB ∧
    (∀ st ∈ barSteps ppq key key2 (beatsA.zip beatsB) p 0,
      st.events = stamp st.delta (stepMsgs key key2 st.onA st.onB st.press)) ∧
    (∀ st post, barSteps ppq key key2 (beatsA.zip beatsB) p 0 = st :: post → st.press = p) ∧
    (∀ pre s0 st post, barSteps ppq key key2 (beatsA.zip beatsB) p 0 = pre ++ s0 :: st :: post →
      st.press.isAPressed = s0.onA ∧ st.press.isBPressed = s0.onB) := by
  refine ⟨playBar_eq_barSteps ppq key key2 beatsA beatsB p (by omega),
    barSteps_reads ppq key key2 _ p 0, barSteps_events ppq key key2 _ p 0, ?_, ?_⟩
  · intro st post h
    exact (barSteps_head ppq key key2 _ p 0 st post h).1
  · intro pre s0 st post h
    exact barSteps_press ppq key key2 _ p 0 pre s0 st post h

/-- C16 at a bar with voice A on in steps 3 and 4 and voice B on in step 9. -/
theorem bar_step_order_witness :
    (pattern [3, 4]).length = 16 ∧ (pattern [9]).length = 16 ∧
    ∀ st ∈ barSteps 480 48 55 ((pattern [3, 4]).zip (pattern [9])) Press.init 0,
      st.events = stamp st.delta (stepMsgs 48 55 st.onA st.onB st.press) :=
  ⟨by decide, by decide,
    (bar_step_order 480 48 55 (pattern [3, 4]) (pattern [9]) Press.init
      (by decide) (by decide)).2.2.1⟩

/-! ## C17: the block of a chord and the ticks of a pass -/

/-- C17. The block the walk emits for a resolved chord with voices `k :: ks`
is a note-on for each voice at pitch `k + 24`, all with delta 0, then a
note-off for each voice in the same order, the first with delta `2 * ppq` and
the others with delta 0 (`ppq < 2 ^ 31`). A quality pass whose tonic chord
resolves with at least one voice and in which no index expression fails runs
to its end with `timeBuffer` 0; its stream is the blocks of the resolved
chords in degree order, nothing for a skipped degree, then the cadence; it
spans `(n + 1) * 2 * ppq` ticks, `n` being the number of degrees whose chord
resolves with at least one voice. -/
theorem scale_chord_block_and_pass (ppq : Nat) (T : Theory) (keys : List Int) (q : Nat)
    (r : String) (rs : List String) (fc : Option (List Int)) (c0 : List Int)
    (hppq : ppq < 2 ^ 31) (hr : T.romanNumerals = r :: rs)
    (h0 : degreeChord T keys 0 q = some c0) (hc0 : c0 ≠ [])
    (hok : ∀ j, j < T.romanNumerals.length → (degreeOutcome T keys j q).isSome = true) :
    (∀ (k : Int) (ks : List Int), chordBlock ppq (k :: ks)
      = (k :: ks).map (fun x => (⟨0, Msg.noteOn 1 (x + 24) 99⟩ : Event)) ++
          ⟨2 * ppq, Msg.noteOff 1 (k + 24)⟩ ::
            ks.map (fun x => (⟨0, Msg.noteOff 1 (x + 24)⟩ : Event))) ∧
    qualityLoop ppq T keys 1 q fc 0
      = Res.ok (some c0, 0)
          ((List.range T.romanNumerals.length).flatMap
              (fun j => chordBlock ppq ((degreeChord T keys j q).getD []))
            ++ cadenceBlock ppq c0) ∧
    totalTicks ((List.range T.romanNumerals.length).flatMap
              (fun j => chordBlock ppq ((degreeChord T keys j q).getD []))
            ++ cadenceBlock ppq c0)
      = (soundingDegrees T keys q T.romanNumerals.length + 1) * (2 * ppq) := by
  have hw : (ppq * 2) % 2 ^ 32 = 2 * ppq := by
    rw [Nat.mod_eq_of_lt (by omega)]
    omega
  refine ⟨?_, ?_, ?_⟩
  · intro k ks
    rw [chordBlock_cons, hw]
  · rw [pass_events ppq T keys q r rs hr fc c0 h0 hok, List.range_eq_range']
    rfl
  · have ht := walkBlocks_ticks ppq T keys q 0 T.romanNumerals.length
    have hc : c0.isEmpty = false := by
      cases c0 with
      | nil => exact absurd rfl hc0
      | cons _ _ => rfl
    rw [List.range_eq_range']
    simp only [walkBlocks] at ht
    rw [totalTicks_append, ht, cadenceBlock_ticks, hc, hw, soundingDegrees]
    simp [Nat.add_mul]

/-- C17 at a three-degree scale of which only the tonic chord resolves. -/
theorem scale_chord_block_and_pass_witness :
    480 < 2 ^ 31 ∧ tonicOnly.romanNumerals = "I" :: ["II", "III"] ∧
    degreeChord tonicOnly (walkKeys tonicOnly) 0 0 = some [0, 4, 7] ∧
    soundingDegrees tonicOnly (walkKeys tonicOnly) 0 3 = 1 ∧
    totalTicks ((List.range tonicOnly.romanNumerals.length).flatMap
              (fun j => chordBlock 480 ((degreeChord tonicOnly (walkKeys tonicOnly) j 0).getD []))
            ++ cadenceBlock 480 [0, 4, 7])
      = (soundingDegrees tonicOnly (walkKeys tonicOnly) 0 tonicOnly.romanNumerals.length + 1)
          * (2 * 480) :=
  ⟨by decide, by decide, by decide, by decide,
    (scale_chord_block_and_pass 480 tonicOnly (walkKeys tonicOnly) 0 "I" ["II", "III"] none
      [0, 4, 7] (by decide) (by decide) (by decide) (by decide) (by decide)).2.2⟩

/-! ## C18: the raised keys of a scale -/

/-- C18. For a root pitch class `r < 12` and a scale given as the pitch
classes `(r + o) % 12` of offsets `0 = o_0 < o_1 < ...`, all below 12, the
raise-and-correct loop of `playScaleChords` (bump 24) produces exactly the keys
`r + o + 24`, and that of `playScale` (bump 48) the keys `r + o + 48`; each
list is strictly ascending and has every element at least its first,
`r + bump`. -/
theorem raised_keys_ascend (r : Nat) (rest : List Nat) (hr : r < 12)
    (hasc : (0 :: rest).Pairwise (fun a b => a < b)) (hlt : ∀ o ∈ rest, o < 12) :
    raiseKeys (((scalePitchClasses r (0 :: rest)).headD 0) + octaveBump)
        (scalePitchClasses r (0 :: rest))
      = (0 :: rest).map (fun (o : Nat) => (r : Int) + (o : Int) + 24) ∧
    playScaleKeys (((scalePitchClasses r (0 :: rest)).headD 0) + 12 * 4)
        (scalePitchClasses r (0 :: rest))
      = (0 :: rest).map (fun (o : Nat) => (r : Int) + (o : Int) + 48) ∧
    ((0 :: rest).map (fun (o : Nat) => (r : Int) + (o : Int) + 24)).Pairwise (fun a b => a < b) ∧
    (∀ x ∈ (0 :: rest).map (fun (o : Nat) => (r : Int) + (o : Int) + 24), (r : Int) + 24 ≤ x) ∧
    ((0 :: rest).map (fun (o : Nat) => (r : Int) + (o : Int) + 48)).Pairwise (fun a b => a < b) ∧
    (∀ x ∈ (0 :: rest).map (fun (o : Nat) => (r : Int) + (o : Int) + 48), (r : Int) + 48 ≤ x) := by
  have hall : ∀ o ∈ (0 :: rest), o < 12 := by
    intro o ho
    rcases List.mem_cons.mp ho with h | h
    · omega
    · exact hlt o h
  have hhead : (scalePitchClasses r (0 :: rest)).headD 0 = (r : Int) := by
    simp only [scalePitchClasses, List.map_cons, List.headD_cons, Nat.add_zero]
    omega
  refine ⟨?_, ?_, pairwise_raised r 24 _ hasc, ?_, pairwise_raised r 48 _ hasc, ?_⟩
  · rw [hhead, raiseKeys, scalePitchClasses, List.map_map]
    apply List.map_congr_left
    intro o ho
    exact raise_one r o hr (hall o ho) 24
  · rw [hhead, playScaleKeys, scalePitchClasses, List.map_map]
    apply List.map_congr_left
    intro o ho
    exact raise_one r o hr (hall o ho) 48
  · intro x hx
    obtain ⟨o, _, rfl⟩ := List.mem_map.mp hx
    omega
  · intro x hx
    obtain ⟨o, _, rfl⟩ := List.mem_map.mp hx
    omega

/-- C18 at the root A (pitch class 9) and the major scale. -/
theorem raised_keys_ascend_witness :
    9 < 12 ∧ (0 :: [2, 4, 5, 7, 9, 11] : List Nat).Pairwise (fun a b => a < b) ∧
    raiseKeys (((scalePitchClasses 9 (0 :: [2, 4, 5, 7, 9, 11])).headD 0) + octaveBump)
        (scalePitchClasses 9 (0 :: [2, 4, 5, 7, 9, 11]))
      = (0 :: [2, 4, 5, 7, 9, 11]).map (fun (o : Nat) => ((9 : Nat) : Int) + (o : Int) + 24) :=
  ⟨by decide, by decide,
    (raised_keys_ascend 9 [2, 4, 5, 7, 9, 11] (by decide) (by decide) (by decide)).1⟩

/-! ## C19: the quality index of a progression slot -/

/-- C19. For a progression slot `k` whose table entries can be read, the chord
type of lines 328-331 is 1 when `k` is even and 0 when `k` is odd, the chord
name is built with that quality index, and in the pass of every texture (any
texture function, first pass or not) the slot resolves its chord by the call
of `theory.NewChordFromAbbrev` on that name: the slot is skipped when the call
returns `nil` and the texture runs on the returned chord otherwise. -/
theorem progression_quality_by_parity (T : Theory) (k : Int) (name : String)
    (hname : chordNameByParity T k = some name)
    (hroman : (index? T.romanNumerals k).isSome = true) :
    (k % 2 = 0 → chordTypeOf k = 1) ∧ (k % 2 = 1 → chordTypeOf k = 0) ∧
    progressionChordName T k = some name ∧
    slotChord T k = T.newChordFromAbbrev name ∧
    ∀ (fn : List Int → Nat → Res Nat) (first : Bool) (ks : List Int) (tb : Nat),
      progressionLoop T fn first (k :: ks) tb
        = match T.newChordFromAbbrev name with
          | none => progressionLoop T fn first ks tb
          | some c => (fn c tb).andThen (fun tb1 => progressionLoop T fn first ks tb1) := by
  have hn : progressionChordName T k = some name := by
    rw [progressionChordName_parity]
    exact hname
  refine ⟨?_, ?_, hn, ?_, ?_⟩
  · intro h
    rw [chordTypeOf_parity, if_pos h]
  · intro h
    rw [chordTypeOf_parity, if_neg (by omega)]
  · simp [slotChord, hn]
  · intro fn first ks tb
    exact progressionLoop_slot T fn first k ks tb name hn hroman

/-- C19 at the slots 0 (even, quality 1) and 3 (odd, quality 0) of C major. -/
theorem progression_quality_by_parity_witness :
    chordNameByParity cMajor 0 = some "Cmaj7\n" ∧ chordNameByParity cMajor 3 = some "Fmaj\n" ∧
    slotChord cMajor 0 = cMajor.newChordFromAbbrev "Cmaj7\n" ∧
    slotChord cMajor 3 = cMajor.newChordFromAbbrev "Fmaj\n" :=
  ⟨by decide, by decide,
    (progression_quality_by_parity cMajor 0 "Cmaj7\n" (by decide) (by decide)).2.2.2.1,
    (progression_quality_by_parity cMajor 3 "Fmaj\n" (by decide) (by decide)).2.2.2.1⟩

/-! ## C20: the number of note-ons and note-offs of a bar -/

/-- C20. For 16-step patterns, every press state on entry and distinct voice
pitches, the bar runs to its end; the number of note-on events it emits is the
number of on steps of voice A plus the number of on steps of voice B, and the
number of note-off events of a voice's pitch is the number of steps in which
that voice was pressed in the previous step (on entry, for step 0) and is not
on in the current one. -/
theorem bar_event_counts (ppq : Nat) (key key2 : Int) (beatsA beatsB : List Bool) (p : Press)
    (hA : beatsA.length = 16) (hB : beatsB.length = 16) (hne : key ≠ key2) :
    ∃ s evs, playBar ppq key key2 beatsA beatsB p = Res.ok s evs ∧
      countNoteOns evs = beatsA.count true + beatsB.count true ∧
      countNoteOffs 1 key evs = releases p.isAPressed beatsA ∧
      countNoteOffs 1 key2 evs = releases p.isBPressed beatsB := by
  obtain ⟨s, hs⟩ := playBar_eq_barSteps ppq key key2 beatsA beatsB p (by omega)
  have h1 : (beatsA.zip beatsB).map Prod.fst = beatsA := List.map_fst_zip _ _ (by omega)
  have h2 : (beatsA.zip beatsB).map Prod.snd = beatsB := List.map_snd_zip _ _ (by omega)
  have hon := barSteps_countNoteOns ppq key key2 (beatsA.zip beatsB) p 0
  have hoff := barSteps_countNoteOffs ppq key key2 hne (beatsA.zip beatsB) p 0
  rw [h1, h2] at hon
  rw [h1, h2] at hoff
  exact ⟨s, _, hs, hon, hoff.1, hoff.2⟩

/-- C20 at a bar with voice A on in steps 3 and 4 and voice B on in step 9. -/
theorem bar_event_counts_witness :
    (pattern [3, 4]).length = 16 ∧ (pattern [9]).length = 16 ∧ (48 : Int) ≠ 55 ∧
    ∃ s evs, playBar 480 48 55 (pattern [3, 4]) (pattern [9]) Press.init = Res.ok s evs ∧
      countNoteOns evs = (pattern [3, 4]).count true + (pattern [9]).count true ∧
      countNoteOffs 1 48 evs = releases Press.init.isAPressed (pattern [3, 4]) ∧
      countNoteOffs 1 55 evs = releases Press.init.isBPressed (pattern [9]) :=
  ⟨by decide, by decide, by decide,
    bar_event_counts 480 48 55 (pattern [3, 4]) (pattern [9]) Press.init
      (by decide) (by decide) (by decide)⟩

end Chords
